import Mathlib

/-! Rate limiter and counter aggregation of `src/server/main.go`.

A shallow embedding of the Go program: its package-level variables become the
fields of `State`, every function that touches them becomes a state-passing
function, and the wall clock (`time.Now()`) and the random draws become
parameters.

Conventions of the embedding.

* `time.Time` is an `Int`: the instant in nanoseconds.  `t.After(u)` is `u < t`,
  `t.Add(d)` is `t + d`, `time.Millisecond` is `1000000`.
* Go `int` (64 bits wide, as on amd64 and arm64) and `time.Duration` (`int64`)
  are `Int` values; the window product of `isAllowed`, the running total of the
  scan and the increments `++` are followed by `wrap64`, the two's-complement
  wrap-around of Go.  The ticker interval of `main` is a product of a number
  from 0 to 59 and needs none.
* A clock reading is identified with its instant: two readings are the same
  map key exactly when they are the same instant.
* A Go map with string keys is a function `String → Option v`; the request log
  `map[time.Time]int`, which the program iterates over, is an association list.
* `sync.Mutex` operations are no-ops: the embedding is sequential.  The one
  exception is `raceTwoCalls`, which runs the two halves of two `isAllowed`
  calls in an interleaved order.
* `cc` and `prev` are references into a heap of map objects, because
  `update` assigns one map variable to the other.
* A run-time panic is the result `none`.
-/

namespace Server

/-! ## Data model -/

/-- Go `type counters struct`: the process-wide view and click counters. -/
structure counters where
  view : Int
  click : Int
deriving DecidableEq, Repr

/-- Go `type counter struct`: a pair of totals stored per category. -/
structure counter where
  View : Int
  Click : Int
deriving DecidableEq, Repr

/-- Go `type config struct`: the rate-limit options of one key. -/
structure config where
  windowMs : Int
  max : Int
  message : String
  statusCode : Int
deriving DecidableEq, Repr

/-- An instant, in nanoseconds. -/
abbrev Time := Int

/-- Go `map[time.Time]int`: the request log of one key. -/
abbrev requestLog := List (Time × Int)

/-- Go `map[string]counter`. -/
abbrev counterMap := String → Option counter

/-- The package-level variables `c`, `cc`, `prev`, `cs`, `rs`, `s`.  The maps
behind `cc` and `prev` live in `heap`; `cc` and `prev` hold their addresses. -/
structure State where
  c : counters
  heap : Nat → counterMap
  cc : Nat
  prev : Nat
  cs : String → Option config
  rs : String → Option requestLog
  s : String → Option counterMap

/-- Go `content`. -/
def content : List String := ["sports", "entertainment", "business", "education"]

/-- Go `options`: the default configuration. -/
def options : config :=
  { windowMs := 1 * 60 * 1000, max := 5, message := "Too many request", statusCode := 429 }

/-- The state after the `var (...)` block: two distinct empty maps for `cc` and
`prev`, empty stores, zero counters. -/
def start : State :=
  { c := { view := 0, click := 0 }
    heap := fun _ _ => none
    cc := 0
    prev := 1
    cs := fun _ => none
    rs := fun _ => none
    s := fun _ => none }

/-! ## Machine integers -/

/-- The value that Go's `int64` (and 64-bit `int`) arithmetic keeps of an exact
result `x`: `x` reduced modulo 2^64 into the range from -2^63 to 2^63 - 1. -/
def wrap64 (x : Int) : Int :=
  (x + 9223372036854775808) % 18446744073709551616 - 9223372036854775808

/-- The exact result `x` lies in the range of `int64`, so Go computes it
without wrap-around. -/
abbrev fitsInt64 (x : Int) : Prop :=
  -9223372036854775808 ≤ x ∧ x < 9223372036854775808

/-! ## Map primitives -/

/-- Map assignment `m[k] = v`. -/
def setKey {α β : Type} [DecidableEq α] (m : α → Option β) (k : α) (v : β) : α → Option β :=
  fun k1 => if k1 = k then some v else m k1

/-- Map read `m[k]` of a counter map: the zero counter when `k` is absent. -/
def readCounter (m : counterMap) (k : String) : counter :=
  (m k).getD { View := 0, Click := 0 }

/-- Lookup `logs[t]` with presence flag. -/
def lookupTs (t : Time) : requestLog → Option Int
  | [] => none
  | (u, n) :: rest => if u = t then some n else lookupTs t rest

/-- Go `delete(logs, t)`. -/
def deleteTs (t : Time) (logs : requestLog) : requestLog :=
  logs.filter (fun e => decide (e.1 ≠ t))

/-- Go `logs[t]++`: add one, in `int` arithmetic, to the count stored at `t`, an
absent `t` counting as zero. -/
def incrTs (t : Time) : requestLog → requestLog
  | [] => [(t, 1)]
  | (u, n) :: rest => if u = t then (u, wrap64 (n + 1)) :: rest else (u, n) :: incrTs t rest

/-! ## Rate limiter -/

/-- The window start of `isAllowed`:
`currentTime.Add(-time.Millisecond * time.Duration(config.windowMs))`.  The
product is an `int64` duration in nanoseconds and wraps around. -/
def windowStart (c : config) (currentTime : Time) : Time :=
  currentTime + wrap64 ((-1000000) * c.windowMs)

/-- Go `getConfig`. -/
def getConfig (st : State) (key : String) : config × State :=
  match st.cs key with
  | none => (options, { st with cs := setKey st.cs key options })
  | some configuration => (configuration, st)

/-- The `for timestamp, count := range logs` loop of `getTotalWithinCurrentWindow`:
the first argument lists the entries still to be visited, the accumulator holds
`totalCount`, an `int` that wraps around, and the map being mutated. -/
def scanLogs (startTime : Time) : requestLog → Int × requestLog → Int × requestLog
  | [], acc => acc
  | (timestamp, count) :: rest, acc =>
      if startTime < timestamp then
        scanLogs startTime rest (wrap64 (acc.1 + count), acc.2)
      else
        scanLogs startTime rest (acc.1, deleteTs timestamp acc.2)

/-- Go `getTotalWithinCurrentWindow`. -/
def getTotalWithinCurrentWindow (st : State) (key : String) (startTime : Time) : Int × State :=
  match st.rs key with
  | none => (0, { st with rs := setKey st.rs key [] })
  | some logs =>
      let r := scanLogs startTime logs (0, logs)
      (r.1, { st with rs := setKey st.rs key r.2 })

/-- Go `registerRequest`.  Writing into the entry of a missing (nil) map panics. -/
def registerRequest (st : State) (key : String) (currentTime : Time) : Option State :=
  match st.rs key with
  | none => none
  | some logs => some { st with rs := setKey st.rs key (incrTs currentTime logs) }

/-- Go `isAllowed`, the clock reading `time.Now()` being the argument `currentTime`. -/
def isAllowed (st : State) (key : String) (currentTime : Time) : Option (Bool × State) :=
  let r := getConfig st key
  let startTime := windowStart r.1 currentTime
  let q := getTotalWithinCurrentWindow r.2 key startTime
  if r.1.max ≤ q.1 then
    some (false, q.2)
  else
    (registerRequest q.2 key currentTime).map (fun st3 => (true, st3))

/-- A sequence of `isAllowed` calls, one after the other, each with its key and
clock reading; the results are collected in call order. -/
def runCalls : State → List (String × Time) → Option (List Bool × State)
  | st, [] => some ([], st)
  | st, (key, t) :: rest =>
      match isAllowed st key t with
      | none => none
      | some r => (runCalls r.2 rest).map (fun q => (r.1 :: q.1, q.2))

/-- The clock readings of the calls for `key` that were admitted. -/
def admittedTimes (key : String) : List (String × Time) → List Bool → List Time
  | (k, t) :: calls, b :: results =>
      if k = key ∧ b = true then t :: admittedTimes key calls results
      else admittedTimes key calls results
  | _, _ => []

/-- The sum of the counts stored at timestamps strictly after `startTime`. -/
def windowTotal (startTime : Time) (logs : requestLog) : Int :=
  ((logs.filter (fun e => decide (startTime < e.1))).map Prod.snd).sum

/-- The log of `key`, a missing log read as the empty one. -/
def logOf (st : State) (key : String) : requestLog :=
  (st.rs key).getD []

/-- The state in which `isAllowed st key now` leaves the stores when it rejects:
the default config persisted, the log of `key` scanned. -/
def scannedState (st : State) (key : String) (now : Time) : State :=
  (getTotalWithinCurrentWindow (getConfig st key).2 key
    (windowStart (getConfig st key).1 now)).2

/-- The state reached by a sequence of `isAllowed` calls. -/
def stateAfter (st : State) (calls : List (String × Time)) : State :=
  match runCalls st calls with
  | some r => r.2
  | none => st

/-- A state whose log for "1.1.1.1" holds one request at t = 0 and five at
t = 100 s, all other stores being as at process start. -/
def staleLogState : State :=
  { start with rs := setKey start.rs "1.1.1.1" [(0, 1), (100000000000, 5)] }

/-- The sum of all counts stored in a log. -/
def logTotal (logs : requestLog) : Int :=
  (logs.map Prod.snd).sum

/-- What holds of the limiter's stores in every state reached from `start` by
`isAllowed` calls: every key resolves to the default config, every stored count
is at least one, and no log holds more than `options.max` requests. -/
def limiterInv (st : State) : Prop :=
  ∀ key, (getConfig st key).1 = options ∧ (∀ e ∈ logOf st key, 1 ≤ e.2) ∧
    logTotal (logOf st key) ≤ options.max

/-- A state in which "1.1.1.1" has a config with a window of 10^13 ms (about
317 years) and max = 1, all other stores being as at process start. -/
def wideWindowState : State :=
  { start with
    cs := setKey start.cs "1.1.1.1"
      { windowMs := 10000000000000, max := 1, message := "Too many request",
        statusCode := 429 } }

/-- A state whose log for "1.1.1.1" holds the largest `int`, 2^63 - 1, as the
count at t = 21 ns and one request at t = 20 ns; no config entry yet. -/
def fullCountState : State :=
  { start with rs := setKey start.rs "1.1.1.1" [(21, 9223372036854775807), (20, 1)] }

/-! ## Event counters -/

/-- Go `processRequest`: after the simulated delay it returns the nil error
(`none`), whatever the request. -/
def processRequest : Option String := none

/-- Go `processClick`: `c.click++` (in `int` arithmetic), then
`cc[data] = counter{c.view, c.click}`.  The write goes to the map object that
`cc` refers to. -/
def processClick (st : State) (data : String) : State :=
  let c1 : counters := { st.c with click := wrap64 (st.c.click + 1) }
  { st with
    c := c1
    heap := Function.update st.heap st.cc
      (setKey (st.heap st.cc) data { View := c1.view, Click := c1.click }) }

/-- Go `viewHandler`.  `pick` is the draw `rand.Intn(len(content))` and `draw`
the draw `rand.Intn(100)`; `c.view++` is done in `int` arithmetic. -/
def viewHandler (st : State) (pick : Fin content.length) (draw : Nat) : State :=
  let data := content.get pick
  let st1 : State := { st with c := { st.c with view := wrap64 (st.c.view + 1) } }
  match processRequest with
  | some _ => st1
  | none => if draw < 50 then processClick st1 data else st1

/-- Go `update`: the assignment `prev = cc` of one map variable to another.  In
Go this copies the reference, not the contents. -/
def update (st : State) : State :=
  { st with prev := st.cc }

/-- The counter read as `cc[g]`. -/
def currentOf (st : State) (g : String) : counter :=
  readCounter (st.heap st.cc) g

/-- The counter read as `prev[g]`. -/
def previousOf (st : State) (g : String) : counter :=
  readCounter (st.heap st.prev) g

/-! ## Bucket labels

`time.Time.Format` with the layout `"2006-01-02 03:04"`: year, month and day of
the civil date, the hour on the 12-hour clock (`03`) and the minute, each
zero-padded.  Instants are read on the local wall clock of a fixed-offset zone. -/

/-- Whole seconds since the epoch. -/
def unixSec (t : Time) : Int := t / 1000000000

/-- Days since the epoch, 1970-01-01. -/
def epochDay (t : Time) : Int := unixSec t / 86400

/-- Go `t.Hour()`: hour of the 24-hour day. -/
def hourOf (t : Time) : Int := unixSec t % 86400 / 3600

/-- Go `t.Minute()`. -/
def minuteOf (t : Time) : Int := unixSec t % 3600 / 60

/-- Go `t.Second()`. -/
def secondOf (t : Time) : Int := unixSec t % 60

/-- Year, month and day of the proleptic Gregorian date that lies `z` days
after 1970-01-01. -/
def civilDate (z : Int) : Int × Int × Int :=
  let z1 := z + 719468
  let era := z1 / 146097
  let doe := z1 % 146097
  let yoe := (doe - doe / 1460 + doe / 36524 - doe / 146096) / 365
  let doy := doe - (365 * yoe + yoe / 4 - yoe / 100)
  let mp := (5 * doy + 2) / 153
  let d := doy - (153 * mp + 2) / 5 + 1
  let m := if mp < 10 then mp + 3 else mp - 9
  let y := yoe + era * 400
  (if m ≤ 2 then y + 1 else y, m, d)

/-- Go `appendInt`: the decimal digits of `x`, zero-padded to `width`, after a
minus sign when `x` is negative. -/
def appendInt (x : Int) (width : Nat) : List Char :=
  let digits := Nat.toDigits 10 x.natAbs
  (if x < 0 then ['-'] else []) ++ (List.replicate (width - digits.length) '0' ++ digits)

/-- The hour shown by the layout element `03`: the hour on the 12-hour clock. -/
def hour12 (t : Time) : Int :=
  if hourOf t % 12 = 0 then 12 else hourOf t % 12

/-- Go `t.Format("2006-01-02 03:04")`. -/
def formatLabel (t : Time) : String :=
  let ymd := civilDate (epochDay t)
  String.mk (appendInt ymd.1 4 ++ ['-'] ++ appendInt ymd.2.1 2 ++ ['-'] ++ appendInt ymd.2.2 2
    ++ [' '] ++ appendInt (hour12 t) 2 ++ [':'] ++ appendInt (minuteOf t) 2)

/-- The calendar minute of an instant: date, hour of the 24-hour day, minute. -/
def calendarMinute (t : Time) : (Int × Int × Int) × Int × Int :=
  (civilDate (epochDay t), hourOf t, minuteOf t)

/-! ## Snapshot store -/

/-- One iteration of the loop of `uploadCounters`, for the category `val`. -/
def uploadOne (prevTime currentTime : String) (st : State) (val : String) : State :=
  let bucket : counterMap := (st.s val).getD (fun _ => none)
  let bucket1 := setKey bucket prevTime
    { View := (previousOf st val).View, Click := (previousOf st val).Click }
  let bucket2 := setKey bucket1 currentTime
    { View := (currentOf st val).View, Click := (currentOf st val).Click }
  { st with s := setKey st.s val bucket2 }

/-- Go `uploadCounters`.  `now1` and `now2` are its two readings of `time.Now()`. -/
def uploadCounters (st : State) (now1 now2 : Time) : State :=
  let prevTime := formatLabel (now1 + (-60000000000) * 1)
  let currentTime := formatLabel now2
  content.foldl (uploadOne prevTime currentTime) st

/-- The bucket `s.c[g][label]`, `none` when the category or the label is absent. -/
def bucketOf (st : State) (g label : String) : Option counter :=
  match st.s g with
  | none => none
  | some m => m label

/-! ## Stats handler -/

/-- Go `type response struct`: one line of the stats report. -/
structure response where
  Key : String
  Value : counter
deriving DecidableEq, Repr

/-- The parts of `*http.Request` that the handlers read: the header
`X-FORWARDED-FOR` (empty when absent) and `RemoteAddr`. -/
structure request where
  forwarded : String
  remoteAddr : String
deriving DecidableEq, Repr

/-- What a handler leaves in its `http.ResponseWriter`: the status given to
`WriteHeader` and the slice encoded into the body, `none` when the handler
writes no body. -/
structure reply where
  statusCode : Int
  body : Option (List response)
deriving DecidableEq, Repr

/-- Go `getIP`. -/
def getIP (r : request) : String :=
  if r.forwarded ≠ "" then r.forwarded else r.remoteAddr

/-- The two nested loops of `statsHandler` that fill `slice`.  The order in
which `range s.c[val]` yields the labels of a category is not fixed by Go:
`order val` lists them in the order of the run at hand. -/
def statsSlice (st : State) (order : String → List String) : List response :=
  content.foldl
    (fun slice val =>
      match st.s val with
      | none => slice
      | some m =>
          (order val).foldl
            (fun slice1 k =>
              match m k with
              | none => slice1
              | some v => slice1 ++ [{ Key := val ++ ":" ++ k, Value := v }])
            slice)
    []

/-- Go `statsHandler`, with the clock reading of its `isAllowed` call. -/
def statsHandler (st : State) (r : request) (now : Time) (order : String → List String) :
    Option (reply × State) :=
  let key := getIP r
  match isAllowed st key now with
  | none => none
  | some (false, st1) => some ({ statusCode := 429, body := none }, st1)
  | some (true, st1) => some ({ statusCode := 200, body := some (statsSlice st1 order) }, st1)

/-! ## Rotation schedule of `main` -/

/-- Go `time.NewTicker(d)`: it panics unless `d` is positive; otherwise the
ticker fires `d` after its creation.  The result is the delay to the first
tick, `none` for the panic. -/
def newTicker (d : Int) : Option Int :=
  if 0 < d then some d else none

/-- The variable `left` of `main`: `59 - time.Now().Second()`, for the start
time `t0`. -/
def left (t0 : Time) : Int := 59 - secondOf t0

/-- The instant of the rotation number `n` (counted from 0) for a process
started at `t0`: the first ticker is `NewTicker(left * time.Second)`, and each
tick replaces the ticker by `NewTicker(time.Minute)`.  Timers are taken to fire
exactly on time. -/
def rotationTime (t0 : Time) : Nat → Option Time
  | 0 => (newTicker (left t0 * 1000000000)).map (fun d => t0 + d)
  | n + 1 =>
      match rotationTime t0 n with
      | none => none
      | some f => (newTicker 60000000000).map (fun d => f + d)

/-! ## Two calls of `isAllowed` interleaved -/

/-- The first part of `isAllowed`, up to the comparison `totalRequest >=
config.max`: the state after the scan, and whether the call goes on to register. -/
def isAllowedCheck (st : State) (key : String) (currentTime : Time) : Bool × State :=
  let r := getConfig st key
  let startTime := windowStart r.1 currentTime
  let q := getTotalWithinCurrentWindow r.2 key startTime
  (decide (¬ r.1.max ≤ q.1), q.2)

/-- The second part of `isAllowed`: return `false`, or register and return `true`. -/
def isAllowedFinish (st : State) (key : String) (currentTime : Time) (proceed : Bool) :
    Option (Bool × State) :=
  if proceed = true then (registerRequest st key currentTime).map (fun st3 => (true, st3))
  else some (false, st)

/-- Two goroutines A and B inside `isAllowed(key)`, scheduled so that both do
their first part before either does its second part. -/
def raceTwoCalls (st : State) (key : String) (tA tB : Time) : Option ((Bool × Bool) × State) :=
  let a := isAllowedCheck st key tA
  let b := isAllowedCheck a.2 key tB
  match isAllowedFinish b.2 key tA a.1 with
  | none => none
  | some ra =>
      match isAllowedFinish ra.2 key tB b.1 with
      | none => none
      | some rb => some ((ra.1, rb.1), rb.2)

/-! ## Lemmas on machine integers -/

theorem wrap64_of_fits (x : Int) (h : fitsInt64 x) : wrap64 x = x := by
  obtain ⟨h1, h2⟩ := h
  unfold wrap64
  omega

theorem wrap64_add_left (a b : Int) : wrap64 (wrap64 a + b) = wrap64 (a + b) := by
  unfold wrap64
  omega

theorem wrap64_idem (a : Int) : wrap64 (wrap64 a) = wrap64 a := by
  unfold wrap64
  omega

theorem wrap64_range (a : Int) : fitsInt64 (wrap64 a) := by
  unfold wrap64
  constructor <;> omega

theorem wrap64_small (x : Int) (h1 : 0 ≤ x) (h2 : x < 9223372036854775808) : wrap64 x = x :=
  wrap64_of_fits x ⟨by omega, h2⟩

/-! ## Lemmas on the map primitives -/

theorem setKey_same {α β : Type} [DecidableEq α] (m : α → Option β) (k : α) (v : β) :
    setKey m k v k = some v := by
  simp [setKey]

theorem setKey_other {α β : Type} [DecidableEq α] (m : α → Option β) (k k1 : α) (v : β)
    (h : k1 ≠ k) : setKey m k v k1 = m k1 := by
  simp [setKey, h]

theorem setKey_self_eq {α β : Type} [DecidableEq α] (m : α → Option β) (k : α) (v : β)
    (h : m k = some v) : setKey m k v = m := by
  funext k1
  by_cases hk : k1 = k
  · subst hk; simp [setKey, h]
  · simp [setKey, hk]

theorem lookupTs_filter (p : Time → Bool) (t : Time) (logs : requestLog) :
    lookupTs t (logs.filter (fun e => p e.1)) = if p t then lookupTs t logs else none := by
  induction logs with
  | nil => simp [lookupTs]
  | cons e rest ih =>
    obtain ⟨u, n⟩ := e
    by_cases hu : u = t
    · subst hu
      by_cases hp : p u
      · simp [List.filter_cons, hp, lookupTs]
      · simp [List.filter_cons, hp, ih]
    · by_cases hp : p u
      · simp [List.filter_cons, hp, lookupTs, hu, ih]
      · simp [List.filter_cons, hp, lookupTs, hu, ih]

theorem lookupTs_incrTs_same (t : Time) (logs : requestLog) :
    lookupTs t (incrTs t logs) = some (wrap64 ((lookupTs t logs).getD 0 + 1)) := by
  induction logs with
  | nil =>
    simp only [incrTs, lookupTs, if_true, Option.getD_none, Option.some.injEq]
    decide
  | cons e rest ih =>
    obtain ⟨u, n⟩ := e
    by_cases hu : u = t
    · simp [incrTs, lookupTs, hu]
    · simp [incrTs, lookupTs, hu, ih]

theorem lookupTs_incrTs_other (t u : Time) (logs : requestLog) (h : u ≠ t) :
    lookupTs u (incrTs t logs) = lookupTs u logs := by
  induction logs with
  | nil => simp [incrTs, lookupTs, Ne.symm h]
  | cons e rest ih =>
    obtain ⟨v, n⟩ := e
    by_cases hv : v = t
    · subst hv
      simp [incrTs, lookupTs, Ne.symm h]
    · by_cases hvu : v = u
      · subst hvu
        simp [incrTs, lookupTs, hv]
      · simp [incrTs, lookupTs, hv, hvu, ih]

theorem windowTotal_incrTs (ws t : Time) (logs : requestLog) (h : ws < t)
    (hfit : ∀ e ∈ logs, wrap64 (e.2 + 1) = e.2 + 1) :
    windowTotal ws (incrTs t logs) = windowTotal ws logs + 1 := by
  induction logs with
  | nil => simp [incrTs, windowTotal, h]
  | cons e rest ih =>
    obtain ⟨u, n⟩ := e
    have hn : wrap64 (n + 1) = n + 1 := hfit (u, n) (List.mem_cons_self _ _)
    have ih1 := ih (fun e he => hfit e (List.mem_cons_of_mem _ he))
    by_cases hu : u = t
    · subst hu
      simp [incrTs, windowTotal, List.filter_cons, h, hn]
      ring
    · unfold windowTotal at ih1
      by_cases hw : ws < u
      · simp [incrTs, windowTotal, List.filter_cons, hu, hw, ih1]
        ring
      · simp [incrTs, windowTotal, List.filter_cons, hu, hw, ih1]

theorem windowTotal_filter (ws ws1 : Time) (logs : requestLog) (h : ws1 ≤ ws) :
    windowTotal ws (logs.filter (fun e => decide (ws1 < e.1))) = windowTotal ws logs := by
  unfold windowTotal
  rw [List.filter_filter]
  congr 2
  apply List.filter_congr
  intro e _
  by_cases hw : ws < e.1
  · have : ws1 < e.1 := lt_of_le_of_lt h hw
    simp [hw, this]
  · simp [hw]

theorem windowTotal_nonneg (ws : Time) (logs : requestLog) (h : ∀ e ∈ logs, 0 ≤ e.2) :
    0 ≤ windowTotal ws logs := by
  unfold windowTotal
  apply List.sum_nonneg
  intro x hx
  rw [List.mem_map] at hx
  obtain ⟨e, he, rfl⟩ := hx
  exact h e (List.mem_of_mem_filter he)

/-! ## Lemmas on log totals -/

theorem count_le_logTotal (logs : requestLog) (h : ∀ e ∈ logs, 0 ≤ e.2) :
    0 ≤ logTotal logs ∧ ∀ e ∈ logs, e.2 ≤ logTotal logs := by
  induction logs with
  | nil => simp [logTotal]
  | cons x rest ih =>
    have hx : 0 ≤ x.2 := h x (List.mem_cons_self _ _)
    obtain ⟨ih1, ih2⟩ := ih (fun e he => h e (List.mem_cons_of_mem _ he))
    unfold logTotal at ih1 ih2 ⊢
    simp only [List.map_cons, List.sum_cons]
    refine ⟨by omega, ?_⟩
    intro e he
    rcases List.mem_cons.mp he with he | he
    · rw [he]; omega
    · have := ih2 e he
      omega

theorem incr_fits (logs : requestLog) (h : ∀ e ∈ logs, 0 ≤ e.2)
    (hb : logTotal logs + 1 < 9223372036854775808) :
    ∀ e ∈ logs, wrap64 (e.2 + 1) = e.2 + 1 := by
  intro e he
  have h1 := (count_le_logTotal logs h).2 e he
  have h0 := h e he
  exact wrap64_small _ (by omega) (by omega)

theorem logTotal_incrTs (t : Time) (logs : requestLog)
    (hfit : ∀ e ∈ logs, wrap64 (e.2 + 1) = e.2 + 1) :
    logTotal (incrTs t logs) = logTotal logs + 1 := by
  induction logs with
  | nil => simp [incrTs, logTotal]
  | cons e rest ih =>
    obtain ⟨u, n⟩ := e
    have hn : wrap64 (n + 1) = n + 1 := hfit (u, n) (List.mem_cons_self _ _)
    have ih1 := ih (fun e he => hfit e (List.mem_cons_of_mem _ he))
    unfold logTotal at ih1
    by_cases hu : u = t
    · simp [incrTs, logTotal, hu, hn]; ring
    · simp [incrTs, logTotal, hu, ih1]; ring

theorem incrTs_counts (t : Time) (logs : requestLog) (c : Int) (hc : c ≤ 1)
    (h : ∀ e ∈ logs, c ≤ e.2) (hfit : ∀ e ∈ logs, wrap64 (e.2 + 1) = e.2 + 1) :
    ∀ e ∈ incrTs t logs, c ≤ e.2 := by
  induction logs with
  | nil => intro e he; simp [incrTs] at he; rw [he]; exact hc
  | cons x rest ih =>
    obtain ⟨u, n⟩ := x
    have hn : c ≤ n := h (u, n) (List.mem_cons_self _ _)
    have hw : wrap64 (n + 1) = n + 1 := hfit (u, n) (List.mem_cons_self _ _)
    have hrest : ∀ e ∈ rest, c ≤ e.2 := fun e he => h e (List.mem_cons_of_mem _ he)
    have hfrest : ∀ e ∈ rest, wrap64 (e.2 + 1) = e.2 + 1 :=
      fun e he => hfit e (List.mem_cons_of_mem _ he)
    intro e he
    by_cases hu : u = t
    · simp only [incrTs, hu, if_true, List.mem_cons] at he
      rcases he with he | he
      · rw [he, hw]; simp only; omega
      · exact hrest e he
    · simp only [incrTs, hu, if_false, List.mem_cons] at he
      rcases he with he | he
      · rw [he]; exact hn
      · exact ih hrest hfrest e he

theorem logTotal_filter (p : Time × Int → Bool) (logs : requestLog)
    (h : ∀ e ∈ logs, 1 ≤ e.2) :
    logTotal (logs.filter p) ≤ logTotal logs ∧
      (logTotal logs ≤ logTotal (logs.filter p) → logs.filter p = logs) := by
  induction logs with
  | nil => simp [logTotal]
  | cons x rest ih =>
    have hx : 1 ≤ x.2 := h x (List.mem_cons_self _ _)
    obtain ⟨ih1, ih2⟩ := ih (fun e he => h e (List.mem_cons_of_mem _ he))
    unfold logTotal at ih1 ih2 ⊢
    by_cases hp : p x = true
    · simp only [List.filter_cons, hp, if_true, List.map_cons, List.sum_cons]
      constructor
      · omega
      · intro hle
        rw [ih2 (by omega)]
    · simp only [List.filter_cons, hp, Bool.false_eq_true, if_false, List.map_cons,
        List.sum_cons]
      constructor
      · omega
      · intro hle
        omega

theorem logTotal_filter_le (p : Time × Int → Bool) (logs : requestLog)
    (h : ∀ e ∈ logs, 0 ≤ e.2) : logTotal (logs.filter p) ≤ logTotal logs := by
  induction logs with
  | nil => simp [logTotal]
  | cons x rest ih =>
    have hx : 0 ≤ x.2 := h x (List.mem_cons_self _ _)
    have ih1 := ih (fun e he => h e (List.mem_cons_of_mem _ he))
    unfold logTotal at ih1 ⊢
    by_cases hp : p x = true
    · simp only [List.filter_cons, hp, if_true, List.map_cons, List.sum_cons]
      omega
    · simp only [List.filter_cons, hp, Bool.false_eq_true, if_false, List.map_cons,
        List.sum_cons]
      omega

theorem windowTotal_le_total (ws : Time) (logs : requestLog) (h : ∀ e ∈ logs, 0 ≤ e.2) :
    windowTotal ws logs ≤ logTotal logs :=
  logTotal_filter_le (fun e => decide (ws < e.1)) logs h

/-! ## Lemmas on the eviction scan -/

theorem scanLogs_eq (ws : Time) (rest : requestLog) (acc : Int × requestLog)
    (hacc : wrap64 acc.1 = acc.1) :
    scanLogs ws rest acc =
      (wrap64 (acc.1 + windowTotal ws rest),
        acc.2.filter (fun e => rest.all (fun x => decide (ws < x.1) || decide (x.1 ≠ e.1)))) := by
  induction rest generalizing acc with
  | nil => simp [scanLogs, windowTotal, hacc]
  | cons x rest ih =>
    obtain ⟨u, n⟩ := x
    by_cases hw : ws < u
    · rw [scanLogs, if_pos hw, ih (wrap64 (acc.1 + n), acc.2) (wrap64_idem _)]
      simp only [wrap64_add_left]
      simp [windowTotal, List.filter_cons, hw]
      congr 1
      ring
    · rw [scanLogs, if_neg hw, ih (acc.1, deleteTs u acc.2) hacc]
      simp only [deleteTs, List.filter_filter, windowTotal, List.filter_cons, hw, decide_False,
        Bool.false_eq_true, if_false, List.all_cons, Bool.false_or]
      refine Prod.ext rfl ?_
      simp only
      apply List.filter_congr
      intro e _
      by_cases he : e.1 = u
      · simp [he]
      · have : u ≠ e.1 := fun h => he h.symm
        simp [he, this]

theorem scanLogs_self (ws : Time) (logs : requestLog) :
    scanLogs ws logs (0, logs) =
      (wrap64 (windowTotal ws logs), logs.filter (fun e => decide (ws < e.1))) := by
  rw [scanLogs_eq ws logs (0, logs) (show wrap64 (0 : Int) = 0 by decide)]
  refine Prod.ext (by simp) ?_
  simp only
  apply List.filter_congr
  intro e he
  by_cases hw : ws < e.1
  · have : ∀ x ∈ logs, (decide (ws < x.1) || decide (x.1 ≠ e.1)) = true := by
      intro x _
      by_cases hx : ws < x.1
      · simp [hx]
      · have : x.1 ≠ e.1 := by
          intro h
          exact hx (h ▸ hw)
        simp [this]
    simp only [hw, decide_True]
    exact List.all_eq_true.mpr this
  · simp only [hw, decide_False]
    apply Bool.eq_false_iff.mpr
    intro hall
    have := List.all_eq_true.mp hall e he
    simp [hw] at this

theorem getTotal_some (st : State) (key : String) (ws : Time) (logs : requestLog)
    (h : st.rs key = some logs) :
    getTotalWithinCurrentWindow st key ws =
      (wrap64 (windowTotal ws logs),
        { st with rs := setKey st.rs key (logs.filter (fun e => decide (ws < e.1))) }) := by
  simp [getTotalWithinCurrentWindow, h, scanLogs_self]

theorem getTotal_none (st : State) (key : String) (ws : Time) (h : st.rs key = none) :
    getTotalWithinCurrentWindow st key ws = (0, { st with rs := setKey st.rs key [] }) := by
  simp [getTotalWithinCurrentWindow, h]

theorem getTotal_eq (st : State) (key : String) (ws : Time) :
    getTotalWithinCurrentWindow st key ws =
      (wrap64 (windowTotal ws (logOf st key)),
        { st with rs := setKey st.rs key ((logOf st key).filter (fun e => decide (ws < e.1))) }) := by
  cases h : st.rs key with
  | none =>
    rw [getTotal_none st key ws h]
    have h0 : wrap64 0 = 0 := by decide
    simp [logOf, h, windowTotal, h0]
  | some logs => rw [getTotal_some st key ws logs h]; simp [logOf, h]

/-! ## Lemmas on `getConfig` and `isAllowed` -/

theorem getConfig_rs (st : State) (key : String) : (getConfig st key).2.rs = st.rs := by
  unfold getConfig
  cases st.cs key <;> rfl

theorem getConfig_logOf (st : State) (key k : String) :
    logOf (getConfig st key).2 k = logOf st k := by
  simp [logOf, getConfig_rs]

theorem getConfig_fst (st : State) (key : String) :
    (getConfig st key).1 = (st.cs key).getD options := by
  unfold getConfig
  cases st.cs key <;> rfl

theorem getConfig_cs (st : State) (key K : String) :
    (getConfig st key).2.cs K = if K = key then some ((st.cs key).getD options) else st.cs K := by
  unfold getConfig
  cases h : st.cs key with
  | some c =>
    by_cases hk : K = key
    · subst hk; simp [h]
    · simp [hk]
  | none => simp [setKey]

theorem getConfig_stable (st : State) (key K : String) :
    (getConfig (getConfig st key).2 K).1 = (getConfig st K).1 := by
  rw [getConfig_fst, getConfig_fst, getConfig_cs]
  by_cases hk : K = key
  · subst hk; simp
  · simp [hk]

theorem isAllowed_eq (st : State) (key : String) (now : Time) :
    isAllowed st key now =
      if (getConfig st key).1.max ≤
          wrap64 (windowTotal (windowStart (getConfig st key).1 now) (logOf st key)) then
        some (false, scannedState st key now)
      else
        some (true, { scannedState st key now with
          rs := setKey (scannedState st key now).rs key
            (incrTs now (logOf (scannedState st key now) key)) }) := by
  unfold isAllowed scannedState
  simp only [getTotal_eq, getConfig_logOf]
  split
  · rfl
  · simp [registerRequest, logOf, setKey]

theorem scannedState_logOf_same (st : State) (key : String) (now : Time) :
    logOf (scannedState st key now) key =
      (logOf st key).filter
        (fun e => decide (windowStart (getConfig st key).1 now < e.1)) := by
  simp only [scannedState, getTotal_eq, getConfig_logOf]
  simp [logOf, setKey]

theorem scannedState_rs_other (st : State) (key K : String) (now : Time) (h : K ≠ key) :
    (scannedState st key now).rs K = st.rs K := by
  simp [scannedState, getTotal_eq, getConfig_rs, setKey, h]

theorem scannedState_cs (st : State) (key : String) (now : Time) :
    (scannedState st key now).cs = (getConfig st key).2.cs := by
  simp [scannedState, getTotal_eq]

theorem scannedState_config (st : State) (key K : String) (now : Time) :
    (getConfig (scannedState st key now) K).1 = (getConfig st K).1 := by
  have h := getConfig_stable st key K
  rw [getConfig_fst] at h ⊢
  rw [scannedState_cs]
  exact h

/-- Every call of `isAllowed` returns: it never panics. -/
theorem isAllowed_isSome (st : State) (key : String) (now : Time) :
    ∃ b st1, isAllowed st key now = some (b, st1) := by
  rw [isAllowed_eq]
  split
  · exact ⟨_, _, rfl⟩
  · exact ⟨_, _, rfl⟩

theorem isAllowed_config (st st1 : State) (key K : String) (now : Time) (b : Bool)
    (h : isAllowed st key now = some (b, st1)) :
    (getConfig st1 K).1 = (getConfig st K).1 := by
  rw [isAllowed_eq] at h
  split at h
  · simp only [Option.some.injEq, Prod.mk.injEq] at h
    rw [← h.2]
    exact scannedState_config st key K now
  · simp only [Option.some.injEq, Prod.mk.injEq] at h
    rw [← h.2, ← scannedState_config st key K now, getConfig_fst, getConfig_fst]

theorem isAllowed_logOf_other (st st1 : State) (key K : String) (now : Time) (b : Bool)
    (h : isAllowed st key now = some (b, st1)) (hK : K ≠ key) :
    logOf st1 K = logOf st K := by
  rw [isAllowed_eq] at h
  split at h
  · simp only [Option.some.injEq, Prod.mk.injEq] at h
    rw [← h.2]
    simp [logOf, scannedState_rs_other st key K now hK]
  · simp only [Option.some.injEq, Prod.mk.injEq] at h
    rw [← h.2]
    simp [logOf, setKey, hK, scannedState_rs_other st key K now hK]

theorem isAllowed_logOf_same (st st1 : State) (key : String) (now : Time) (b : Bool)
    (h : isAllowed st key now = some (b, st1)) :
    logOf st1 key =
      if b = true then incrTs now (logOf (scannedState st key now) key)
      else logOf (scannedState st key now) key := by
  rw [isAllowed_eq] at h
  split at h
  · simp only [Option.some.injEq, Prod.mk.injEq] at h
    rw [← h.2, ← h.1]
    simp
  · simp only [Option.some.injEq, Prod.mk.injEq] at h
    rw [← h.2, ← h.1]
    simp [logOf, setKey]

/-! ## Lemmas on sequences of calls -/

theorem admittedTimes_sublist (K : String) :
    ∀ (calls : List (String × Time)) (results : List Bool),
      List.Sublist (admittedTimes K calls results) (calls.map Prod.snd) := by
  intro calls
  induction calls with
  | nil => intro results; simp [admittedTimes]
  | cons c calls ih =>
    intro results
    obtain ⟨k, u⟩ := c
    cases results with
    | nil => simp [admittedTimes]
    | cons b results =>
      simp only [admittedTimes, List.map_cons]
      split
      · exact (ih results).cons₂ u
      · exact (ih results).cons u

/-- Along a run whose clock readings stay at or below `t`, and whose admitted
calls for `K` all lie inside the window that ends at `t`, the config of `K`
stays the same and the total of `K` inside that window grows by one per
admitted call, as long as the counts of the log are non-negative and their sum
plus the number of calls stays below 2^63. -/
theorem runCalls_window (K : String) (t : Time) :
    ∀ (calls : List (String × Time)) (st st1 : State) (results : List Bool),
      runCalls st calls = some (results, st1) →
      (∀ c ∈ calls, c.2 ≤ t) →
      (∀ a ∈ admittedTimes K calls results,
        windowStart (getConfig st K).1 t < a) →
      (∀ e ∈ logOf st K, 0 ≤ e.2) →
      logTotal (logOf st K) + (calls.length : Int) < 9223372036854775808 →
      (getConfig st1 K).1 = (getConfig st K).1 ∧
      windowTotal (windowStart (getConfig st K).1 t) (logOf st1 K) =
        windowTotal (windowStart (getConfig st K).1 t) (logOf st K) +
          ((admittedTimes K calls results).length : Int) ∧
      (∀ e ∈ logOf st1 K, 0 ≤ e.2) ∧
      logTotal (logOf st1 K) ≤ logTotal (logOf st K) + (calls.length : Int) := by
  intro calls
  induction calls with
  | nil =>
    intro st st1 results hrun _ _ hnn _
    simp only [runCalls, Option.some.injEq, Prod.mk.injEq] at hrun
    rw [← hrun.2, ← hrun.1]
    exact ⟨rfl, by simp [admittedTimes], hnn, by simp⟩
  | cons c calls ih =>
    intro st st1 results hrun hle hadm hnn hbound
    obtain ⟨k, u⟩ := c
    obtain ⟨b, st2, hcall⟩ := isAllowed_isSome st k u
    simp only [runCalls, hcall] at hrun
    cases hq : runCalls st2 calls with
    | none => rw [hq] at hrun; simp at hrun
    | some q =>
    obtain ⟨rs2, st3⟩ := q
    rw [hq] at hrun
    simp only [Option.map_some', Option.some.injEq, Prod.mk.injEq] at hrun
    obtain ⟨hres, hst⟩ := hrun
    subst hst
    subst hres
    have hcfg := isAllowed_config st st2 k K u b hcall
    have hu : u ≤ t := hle (k, u) (List.mem_cons_self _ _)
    have hle2 : ∀ c ∈ calls, c.2 ≤ t := fun c hc => hle c (List.mem_cons_of_mem _ hc)
    have hadm2 : ∀ a ∈ admittedTimes K calls rs2,
        windowStart (getConfig st2 K).1 t < a := by
      intro a ha
      rw [hcfg]
      apply hadm a
      simp only [admittedTimes]
      split
      · exact List.mem_cons_of_mem _ ha
      · exact ha
    have hlen : (((k, u) :: calls).length : Int) = (calls.length : Int) + 1 := by
      simp
    rw [hlen] at hbound ⊢
    -- the log of `K` after the first call
    have hstep : (∀ e ∈ logOf st2 K, 0 ≤ e.2) ∧
        logTotal (logOf st2 K) ≤ logTotal (logOf st K) + 1 ∧
        windowTotal (windowStart (getConfig st K).1 t) (logOf st2 K) =
          windowTotal (windowStart (getConfig st K).1 t) (logOf st K) +
            ((admittedTimes K [(k, u)] [b]).length : Int) := by
      by_cases hk : k = K
      · subst hk
        have hlog := isAllowed_logOf_same st st2 k u b hcall
        rw [scannedState_logOf_same] at hlog
        have hws : windowStart (getConfig st k).1 u ≤ windowStart (getConfig st k).1 t :=
          add_le_add_right hu _
        have hkeep : ∀ e ∈ (logOf st k).filter
            (fun e => decide (windowStart (getConfig st k).1 u < e.1)), 0 ≤ e.2 :=
          fun e he => hnn e (List.mem_of_mem_filter he)
        have hkle := logTotal_filter_le
          (fun e => decide (windowStart (getConfig st k).1 u < e.1)) (logOf st k) hnn
        cases b with
        | true =>
          have hin : windowStart (getConfig st k).1 t < u := by
            apply hadm u
            simp [admittedTimes]
          have hfit := incr_fits _ hkeep (by omega)
          simp only [if_true] at hlog
          rw [hlog]
          refine ⟨incrTs_counts u _ 0 (by decide) hkeep hfit, ?_, ?_⟩
          · rw [logTotal_incrTs u _ hfit]
            omega
          · rw [windowTotal_incrTs _ _ _ hin hfit, windowTotal_filter _ _ _ hws]
            simp [admittedTimes]
        | false =>
          simp only [Bool.false_eq_true, if_false] at hlog
          rw [hlog]
          refine ⟨hkeep, by omega, ?_⟩
          rw [windowTotal_filter _ _ _ hws]
          simp [admittedTimes]
      · have hKk : K ≠ k := fun h => hk h.symm
        rw [isAllowed_logOf_other st st2 k K u b hcall hKk]
        refine ⟨hnn, by omega, ?_⟩
        simp [admittedTimes, hk]
    obtain ⟨hnn2, htot2, hwin2⟩ := hstep
    obtain ⟨ih1, ih2, ih3, ih4⟩ := ih st2 st3 rs2 hq hle2 hadm2 hnn2 (by omega)
    rw [hcfg] at ih1 ih2
    refine ⟨ih1, ?_, ih3, by omega⟩
    rw [ih2, hwin2]
    by_cases hk : k = K ∧ b = true
    · simp [admittedTimes, hk]
      ring
    · simp [admittedTimes, hk]

theorem isAllowed_rs_admitted (st st1 : State) (key : String) (now : Time)
    (h : isAllowed st key now = some (true, st1)) :
    st1.rs key = some (incrTs now (logOf (scannedState st key now) key)) := by
  rw [isAllowed_eq] at h
  split at h
  · simp at h
  · simp only [Option.some.injEq, Prod.mk.injEq, true_and] at h
    rw [← h]
    simp [setKey]

theorem isAllowed_rejected_state (st st1 : State) (key : String) (now : Time)
    (h : isAllowed st key now = some (false, st1)) :
    st1 = scannedState st key now := by
  rw [isAllowed_eq] at h
  split at h
  · simp only [Option.some.injEq, Prod.mk.injEq, true_and] at h
    exact h.symm
  · simp at h

theorem scannedState_rs_same (st : State) (key : String) (now : Time) :
    (scannedState st key now).rs key =
      some ((logOf st key).filter
        (fun e => decide (windowStart (getConfig st key).1 now < e.1))) := by
  simp only [scannedState, getTotal_eq, getConfig_logOf]
  simp [setKey]

theorem isAllowed_admitted_lt (st st1 : State) (key : String) (now : Time)
    (h : isAllowed st key now = some (true, st1)) :
    wrap64 (windowTotal (windowStart (getConfig st key).1 now) (logOf st key)) <
      (getConfig st key).1.max := by
  rw [isAllowed_eq] at h
  split at h
  · simp at h
  · rename_i hlt
    exact lt_of_not_le hlt

theorem isAllowed_rejected_le (st st1 : State) (key : String) (now : Time)
    (h : isAllowed st key now = some (false, st1)) :
    (getConfig st key).1.max ≤
      wrap64 (windowTotal (windowStart (getConfig st key).1 now) (logOf st key)) := by
  rw [isAllowed_eq] at h
  split at h
  · rename_i hle
    exact hle
  · simp at h

theorem windowStart_options (now : Time) : windowStart options now = now - 60000000000 := by
  have h : wrap64 ((-1000000) * options.windowMs) = -60000000000 := by decide
  unfold windowStart
  rw [h]
  ring

theorem windowStart_of_fits (c : config) (now : Time)
    (h : fitsInt64 ((-1000000) * c.windowMs)) :
    windowStart c now = now + (-1000000) * c.windowMs := by
  unfold windowStart
  rw [wrap64_of_fits _ h]

/-- Calls at one timestamp on a log that holds only that timestamp, under the
default config: as long as they are admitted, each adds one to the single entry. -/
theorem runCalls_same_timestamp (key : String) (now : Time) :
    ∀ (k : Nat) (st stk : State) (j : Int),
      st.rs key = some [(now, j)] →
      (getConfig st key).1 = options →
      0 ≤ j → j < 9223372036854775808 →
      runCalls st (List.replicate k (key, now)) = some (List.replicate k true, stk) →
      stk.rs key = some [(now, j + k)] := by
  intro k
  induction k with
  | zero =>
    intro st stk j hlog _ _ _ hrun
    simp only [List.replicate, runCalls, Option.some.injEq, Prod.mk.injEq, true_and] at hrun
    rw [← hrun, hlog]
    simp
  | succ k ih =>
    intro st stk j hlog hcfg hj0 hj1 hrun
    obtain ⟨b, st2, hcall⟩ := isAllowed_isSome st key now
    simp only [List.replicate, runCalls, hcall] at hrun
    cases hq : runCalls st2 (List.replicate k (key, now)) with
    | none => rw [hq] at hrun; simp at hrun
    | some q =>
    obtain ⟨rs2, st3⟩ := q
    rw [hq] at hrun
    simp only [Option.map_some', Option.some.injEq, Prod.mk.injEq, List.cons.injEq] at hrun
    obtain ⟨⟨hb, hres⟩, hst⟩ := hrun
    subst hb
    subst hres
    subst hst
    have hrs := isAllowed_rs_admitted st st2 key now hcall
    have hlt := isAllowed_admitted_lt st st2 key now hcall
    have hin : windowStart options now < now := by
      rw [windowStart_options]
      linarith
    rw [scannedState_logOf_same, hcfg] at hrs
    simp only [logOf, hlog, Option.getD_some, List.filter_cons, hin, decide_True, if_true,
      List.filter_nil, incrTs] at hrs
    have hjmax : j < 5 := by
      rw [hcfg] at hlt
      simp only [logOf, hlog, Option.getD_some, windowTotal, List.filter_cons, hin,
        decide_True, if_true, List.filter_nil, List.map_cons, List.map_nil, List.sum_cons,
        List.sum_nil, add_zero] at hlt
      rw [wrap64_small j hj0 hj1] at hlt
      exact hlt
    rw [wrap64_small (j + 1) (by omega) (by omega)] at hrs
    have hcfg2 : (getConfig st2 key).1 = options := by
      rw [isAllowed_config st st2 key key now true hcall]
      exact hcfg
    have := ih st2 st3 (j + 1) hrs hcfg2 (by omega) (by omega) hq
    rw [this]
    push_cast
    congr 3
    ring

/-! ## Lemmas on the event counters and the snapshot store -/

theorem appendInt_two_inj : ∀ i : Fin 60, ∀ j : Fin 60,
    appendInt ((i : Nat) : Int) 2 = appendInt ((j : Nat) : Int) 2 → i = j := by
  decide

theorem appendInt_two_length : ∀ i : Fin 60, (appendInt ((i : Nat) : Int) 2).length = 2 := by
  decide

theorem minuteOf_range (t : Time) : 0 ≤ minuteOf t ∧ minuteOf t < 60 := by
  unfold minuteOf unixSec
  omega

theorem minuteOf_prev_ne (t : Time) : minuteOf (t + (-60000000000) * 1) ≠ minuteOf t := by
  unfold minuteOf unixSec
  omega

theorem formatLabel_minute (t1 t2 : Time) (h : formatLabel t1 = formatLabel t2) :
    minuteOf t1 = minuteOf t2 := by
  obtain ⟨h1a, h1b⟩ := minuteOf_range t1
  obtain ⟨h2a, h2b⟩ := minuteOf_range t2
  unfold formatLabel at h
  simp only at h
  have hl := congrArg String.data h
  simp only at hl
  generalize minuteOf t1 = m1 at *
  generalize minuteOf t2 = m2 at *
  lift m1 to ℕ using h1a
  lift m2 to ℕ using h2a
  have hm1 : m1 < 60 := by omega
  have hm2 : m2 < 60 := by omega
  have hlen : (appendInt (m1 : Int) 2).length = (appendInt (m2 : Int) 2).length := by
    rw [appendInt_two_length ⟨m1, hm1⟩, appendInt_two_length ⟨m2, hm2⟩]
  have hr := List.append_inj_right' hl hlen
  have := appendInt_two_inj ⟨m1, hm1⟩ ⟨m2, hm2⟩ hr
  simp only [Fin.mk.injEq] at this
  rw [this]

theorem formatLabel_prev_ne (now : Time) :
    formatLabel (now + (-60000000000) * 1) ≠ formatLabel now := by
  intro h
  exact minuteOf_prev_ne now (formatLabel_minute _ _ h)

theorem foldl_uploadOne_frame (p c : String) :
    ∀ (cats : List String) (st : State),
      (cats.foldl (uploadOne p c) st).heap = st.heap ∧
      (cats.foldl (uploadOne p c) st).cc = st.cc ∧
      (cats.foldl (uploadOne p c) st).prev = st.prev ∧
      (cats.foldl (uploadOne p c) st).c = st.c ∧
      (cats.foldl (uploadOne p c) st).cs = st.cs ∧
      (cats.foldl (uploadOne p c) st).rs = st.rs := by
  intro cats
  induction cats with
  | nil => intro st; simp
  | cons x xs ih =>
    intro st
    rw [List.foldl_cons]
    obtain ⟨h1, h2, h3, h4, h5, h6⟩ := ih (uploadOne p c st x)
    exact ⟨h1, h2, h3, h4, h5, h6⟩

theorem foldl_uploadOne_absent (p c : String) :
    ∀ (cats : List String) (st : State) (g : String), g ∉ cats →
      (cats.foldl (uploadOne p c) st).s g = st.s g := by
  intro cats
  induction cats with
  | nil => intro st g _; rfl
  | cons x xs ih =>
    intro st g hg
    rw [List.foldl_cons, ih (uploadOne p c st x) g (fun h => hg (List.mem_cons_of_mem _ h))]
    have : g ≠ x := fun h => hg (h ▸ List.mem_cons_self _ _)
    simp [uploadOne, setKey, this]

theorem bucketOf_uploadOne_same (p c : String) (st : State) (g label : String) :
    bucketOf (uploadOne p c st g) g label =
      if label = c then some (currentOf st g)
      else if label = p then some (previousOf st g)
      else bucketOf st g label := by
  by_cases hc : label = c
  · simp [bucketOf, uploadOne, setKey, hc]
  · by_cases hp : label = p
    · simp [bucketOf, uploadOne, setKey, hc, hp]
    · cases hs : st.s g <;> simp [bucketOf, uploadOne, setKey, hc, hp, hs]

theorem bucketOf_uploadOne_other (p c : String) (st : State) (x g label : String)
    (h : g ≠ x) : bucketOf (uploadOne p c st x) g label = bucketOf st g label := by
  simp [bucketOf, uploadOne, setKey, h]

theorem bucketOf_foldl_uploadOne (p c : String) :
    ∀ (cats : List String) (st : State) (g label : String), g ∈ cats →
      bucketOf (cats.foldl (uploadOne p c) st) g label =
        if label = c then some (currentOf st g)
        else if label = p then some (previousOf st g)
        else bucketOf st g label := by
  intro cats
  induction cats with
  | nil => intro st g label hg; simp at hg
  | cons x xs ih =>
    intro st g label hg
    rw [List.foldl_cons]
    have hcur : currentOf (uploadOne p c st x) g = currentOf st g := rfl
    have hprev : previousOf (uploadOne p c st x) g = previousOf st g := rfl
    by_cases hxs : g ∈ xs
    · rw [ih (uploadOne p c st x) g label hxs, hcur, hprev]
      by_cases hx : g = x
      · subst hx
        rw [bucketOf_uploadOne_same]
        by_cases hc : label = c
        · simp [hc]
        · by_cases hp : label = p
          · simp [hc, hp]
          · simp [hc, hp]
      · rw [bucketOf_uploadOne_other p c st x g label hx]
    · have hx : g = x := by
        rcases List.mem_cons.mp hg with h | h
        · exact h
        · exact absurd h hxs
      subst hx
      have hb : bucketOf (xs.foldl (uploadOne p c) (uploadOne p c st g)) g label =
          bucketOf (uploadOne p c st g) g label := by
        unfold bucketOf
        rw [foldl_uploadOne_absent p c xs (uploadOne p c st g) g hxs]
      rw [hb, bucketOf_uploadOne_same]

/-! ## The invariant of the sequential limiter -/

theorem limiterInv_start : limiterInv start := by
  intro key
  refine ⟨rfl, ?_, ?_⟩
  · intro e he
    simp [logOf, start] at he
  · simp [logOf, start, logTotal, options]

theorem limiterInv_isAllowed (st st1 : State) (key : String) (now : Time) (b : Bool)
    (hinv : limiterInv st) (h : isAllowed st key now = some (b, st1)) : limiterInv st1 := by
  intro K
  obtain ⟨hc, hcount, htot⟩ := hinv K
  refine ⟨(isAllowed_config st st1 key K now b h).trans hc, ?_⟩
  by_cases hK : K = key
  · subst hK
    have hlog := isAllowed_logOf_same st st1 K now b h
    rw [scannedState_logOf_same, hc] at hlog
    have hmax : options.max = 5 := rfl
    have hkeep : ∀ e ∈ (logOf st K).filter
        (fun e => decide (windowStart options now < e.1)), 1 ≤ e.2 :=
      fun e he => hcount e (List.mem_of_mem_filter he)
    have hkeep0 : ∀ e ∈ (logOf st K).filter
        (fun e => decide (windowStart options now < e.1)), 0 ≤ e.2 :=
      fun e he => le_trans (by decide) (hkeep e he)
    have hle := (logTotal_filter
      (fun e => decide (windowStart options now < e.1)) (logOf st K) hcount).1
    have hnn := (count_le_logTotal _ hkeep0).1
    cases b with
    | false =>
      simp only [Bool.false_eq_true, if_false] at hlog
      rw [hlog]
      exact ⟨hkeep, le_trans hle htot⟩
    | true =>
      simp only [if_true] at hlog
      rw [hlog]
      have hfit := incr_fits _ hkeep0 (by omega)
      refine ⟨incrTs_counts now _ 1 (le_refl 1) hkeep hfit, ?_⟩
      rw [logTotal_incrTs now _ hfit]
      have hlt := isAllowed_admitted_lt st st1 K now h
      rw [hc] at hlt
      have hwt : windowTotal (windowStart options now) (logOf st K) =
          logTotal ((logOf st K).filter
            (fun e => decide (windowStart options now < e.1))) := rfl
      rw [hwt, wrap64_small _ hnn (by omega)] at hlt
      omega
  · rw [isAllowed_logOf_other st st1 key K now b h hK]
    exact ⟨hcount, htot⟩

theorem limiterInv_runCalls :
    ∀ (calls : List (String × Time)) (st st1 : State) (results : List Bool),
      limiterInv st → runCalls st calls = some (results, st1) → limiterInv st1 := by
  intro calls
  induction calls with
  | nil =>
    intro st st1 results hinv hrun
    simp only [runCalls, Option.some.injEq, Prod.mk.injEq] at hrun
    rw [← hrun.2]
    exact hinv
  | cons c calls ih =>
    intro st st1 results hinv hrun
    obtain ⟨k, u⟩ := c
    obtain ⟨b, st2, hcall⟩ := isAllowed_isSome st k u
    simp only [runCalls, hcall] at hrun
    cases hq : runCalls st2 calls with
    | none => rw [hq] at hrun; simp at hrun
    | some q =>
    obtain ⟨rs2, st3⟩ := q
    rw [hq] at hrun
    simp only [Option.map_some', Option.some.injEq, Prod.mk.injEq] at hrun
    rw [← hrun.2]
    exact ih st2 st3 rs2 (limiterInv_isAllowed st st2 k u b hinv hcall) hq

theorem limiterInv_reject (st st1 : State) (key : String) (now : Time)
    (hinv : limiterInv st) (h : isAllowed st key now = some (false, st1)) :
    st1.rs = st.rs := by
  obtain ⟨hc, hcount, htot⟩ := hinv key
  have hst := isAllowed_rejected_state st st1 key now h
  have hle := isAllowed_rejected_le st st1 key now h
  rw [hc] at hle
  have hmax : options.max = 5 := rfl
  have hfil := logTotal_filter
    (fun e => decide (windowStart options now < e.1)) (logOf st key) hcount
  have hkeep0 : ∀ e ∈ (logOf st key).filter
      (fun e => decide (windowStart options now < e.1)), 0 ≤ e.2 :=
    fun e he => le_trans (by decide) (hcount e (List.mem_of_mem_filter he))
  have hnn := (count_le_logTotal _ hkeep0).1
  have hwt : windowTotal (windowStart options now) (logOf st key) =
      logTotal ((logOf st key).filter
        (fun e => decide (windowStart options now < e.1))) := rfl
  have hup := hfil.1
  rw [hwt, wrap64_small _ hnn (by omega)] at hle
  have hsame := hfil.2 (by omega)
  subst hst
  funext k
  by_cases hk : k = key
  · subst hk
    rw [scannedState_rs_same, hc, hsame]
    cases hrs : st.rs k with
    | some logs => simp [logOf, hrs]
    | none =>
      exfalso
      simp [logOf, hrs, logTotal, options] at hle
  · exact scannedState_rs_other st key k now hk

/-! ## Lemmas on the rotation schedule -/

theorem secondOf_range (t : Time) : 0 ≤ secondOf t ∧ secondOf t ≤ 59 := by
  unfold secondOf unixSec
  omega

theorem rotationTime_first (t0 : Time) (h : secondOf t0 ≠ 59) :
    rotationTime t0 0 = some (t0 + left t0 * 1000000000) := by
  have hr := secondOf_range t0
  have hpos : 0 < left t0 * 1000000000 := by
    unfold left
    omega
  simp [rotationTime, newTicker, hpos]

theorem rotationTime_later (t0 : Time) (h : secondOf t0 ≠ 59) :
    ∀ n : Nat, rotationTime t0 n =
      some (t0 + left t0 * 1000000000 + (n : Int) * 60000000000) := by
  intro n
  induction n with
  | zero => simp [rotationTime_first t0 h]
  | succ n ih =>
    simp only [rotationTime, ih, newTicker]
    simp only [show (0 : Int) < 60000000000 by decide, if_true, Option.map_some',
      Option.some.injEq]
    push_cast
    ring

/-! ## Lemmas on evicted timestamps, whole runs and repeated uploads -/

theorem runCalls_isSome :
    ∀ (calls : List (String × Time)) (st : State),
      ∃ results st1, runCalls st calls = some (results, st1) := by
  intro calls
  induction calls with
  | nil => intro st; exact ⟨[], st, rfl⟩
  | cons c calls ih =>
    intro st
    obtain ⟨k, u⟩ := c
    obtain ⟨b, st2, hcall⟩ := isAllowed_isSome st k u
    obtain ⟨rs2, st3, hrest⟩ := ih st2
    exact ⟨b :: rs2, st3, by simp [runCalls, hcall, hrest]⟩

theorem isAllowed_absent (st st1 : State) (K key : String) (now t : Time) (b : Bool)
    (habs : lookupTs t (logOf st K) = none) (hne : now ≠ t)
    (h : isAllowed st key now = some (b, st1)) :
    lookupTs t (logOf st1 K) = none := by
  by_cases hK : K = key
  · subst hK
    have hlog := isAllowed_logOf_same st st1 K now b h
    rw [scannedState_logOf_same] at hlog
    have hkept : lookupTs t ((logOf st K).filter
        (fun e => decide (windowStart (getConfig st K).1 now < e.1))) = none := by
      rw [lookupTs_filter
        (fun u => decide (windowStart (getConfig st K).1 now < u)) t (logOf st K)]
      simp [habs]
    cases b with
    | false =>
      simp only [Bool.false_eq_true, if_false] at hlog
      rw [hlog, hkept]
    | true =>
      simp only [if_true] at hlog
      rw [hlog, lookupTs_incrTs_other now t _ (Ne.symm hne), hkept]
  · rw [isAllowed_logOf_other st st1 key K now b h hK]
    exact habs

theorem isAllowed_evicted (st st1 : State) (K : String) (u t : Time) (b : Bool)
    (hW : windowStart (getConfig st K).1 u < u)
    (ht : t ≤ windowStart (getConfig st K).1 u)
    (h : isAllowed st K u = some (b, st1)) :
    lookupTs t (logOf st1 K) = none := by
  have hlog := isAllowed_logOf_same st st1 K u b h
  rw [scannedState_logOf_same] at hlog
  have hkept : lookupTs t ((logOf st K).filter
      (fun e => decide (windowStart (getConfig st K).1 u < e.1))) = none := by
    rw [lookupTs_filter
      (fun v => decide (windowStart (getConfig st K).1 u < v)) t (logOf st K)]
    simp only [decide_eq_false (not_lt.mpr ht), Bool.false_eq_true, if_false]
  have hne : t ≠ u := by
    intro heq
    rw [heq] at ht
    linarith
  cases b with
  | false =>
    simp only [Bool.false_eq_true, if_false] at hlog
    rw [hlog, hkept]
  | true =>
    simp only [if_true] at hlog
    rw [hlog, lookupTs_incrTs_other u t _ hne, hkept]

theorem runCalls_absent (K : String) (t : Time) :
    ∀ (calls : List (String × Time)) (st st1 : State) (results : List Bool),
      lookupTs t (logOf st K) = none → (∀ c ∈ calls, t < c.2) →
      runCalls st calls = some (results, st1) → lookupTs t (logOf st1 K) = none := by
  intro calls
  induction calls with
  | nil =>
    intro st st1 results habs _ hrun
    simp only [runCalls, Option.some.injEq, Prod.mk.injEq] at hrun
    rw [← hrun.2]
    exact habs
  | cons c calls ih =>
    intro st st1 results habs hlater hrun
    obtain ⟨k, u⟩ := c
    obtain ⟨b, st2, hcall⟩ := isAllowed_isSome st k u
    simp only [runCalls, hcall] at hrun
    cases hq : runCalls st2 calls with
    | none => rw [hq] at hrun; simp at hrun
    | some q =>
    obtain ⟨rs2, st3⟩ := q
    rw [hq] at hrun
    simp only [Option.map_some', Option.some.injEq, Prod.mk.injEq] at hrun
    rw [← hrun.2]
    have hu : t < u := hlater (k, u) (List.mem_cons_self _ _)
    have habs2 := isAllowed_absent st st2 K k u t b habs (ne_of_gt hu) hcall
    exact ih st2 st3 rs2 habs2 (fun c hc => hlater c (List.mem_cons_of_mem _ hc)) hq

theorem filter_absent (t : Time) (logs : requestLog) (h : lookupTs t logs = none) :
    logs.filter (fun e => decide (e.1 ≠ t)) = logs := by
  induction logs with
  | nil => rfl
  | cons e rest ih =>
    obtain ⟨u, n⟩ := e
    by_cases hu : u = t
    · simp [lookupTs, hu] at h
    · simp only [lookupTs, hu, if_false] at h
      simp only [List.filter_cons, ne_eq, hu, not_false_eq_true, decide_True, if_true, ih h]

theorem windowTotal_le_logTotal (ws : Time) (logs : requestLog) (h : ∀ e ∈ logs, 1 ≤ e.2) :
    windowTotal ws logs ≤ logTotal logs :=
  (logTotal_filter (fun e => decide (ws < e.1)) logs h).1

theorem State_eq (a b : State) (h1 : a.c = b.c) (h2 : a.heap = b.heap) (h3 : a.cc = b.cc)
    (h4 : a.prev = b.prev) (h5 : a.cs = b.cs) (h6 : a.rs = b.rs) (h7 : a.s = b.s) : a = b := by
  cases a
  cases b
  simp_all

theorem foldl_uploadOne_present (p c : String) :
    ∀ (cats : List String) (st : State) (g : String), g ∈ cats →
      ∃ m, (cats.foldl (uploadOne p c) st).s g = some m := by
  intro cats
  induction cats with
  | nil => intro st g hg; simp at hg
  | cons x xs ih =>
    intro st g hg
    rw [List.foldl_cons]
    by_cases hxs : g ∈ xs
    · exact ih (uploadOne p c st x) g hxs
    · have hx : g = x := by
        rcases List.mem_cons.mp hg with h | h
        · exact h
        · exact absurd h hxs
      subst hx
      rw [foldl_uploadOne_absent p c xs (uploadOne p c st g) g hxs]
      exact ⟨_, setKey_same _ _ _⟩

theorem foldl_uploadOne_twice (p c : String) (cats : List String) (st : State) :
    cats.foldl (uploadOne p c) (cats.foldl (uploadOne p c) st) =
      cats.foldl (uploadOne p c) st := by
  obtain ⟨h1, h2, h3, h4, h5, h6⟩ := foldl_uploadOne_frame p c cats st
  obtain ⟨k1, k2, k3, k4, k5, k6⟩ :=
    foldl_uploadOne_frame p c cats (cats.foldl (uploadOne p c) st)
  apply State_eq _ _ k4 k1 k2 k3 k5 k6
  funext g
  by_cases hg : g ∈ cats
  · obtain ⟨m1, hm1⟩ := foldl_uploadOne_present p c cats st g hg
    obtain ⟨m2, hm2⟩ :=
      foldl_uploadOne_present p c cats (cats.foldl (uploadOne p c) st) g hg
    rw [hm1, hm2]
    congr 1
    funext label
    have e2 := bucketOf_foldl_uploadOne p c cats (cats.foldl (uploadOne p c) st) g label hg
    have e1 := bucketOf_foldl_uploadOne p c cats st g label hg
    have hcur : currentOf (cats.foldl (uploadOne p c) st) g = currentOf st g := by
      simp only [currentOf, h1, h2]
    have hprev : previousOf (cats.foldl (uploadOne p c) st) g = previousOf st g := by
      simp only [previousOf, h1, h3]
    rw [hcur, hprev] at e2
    simp only [bucketOf, hm2] at e2
    simp only [bucketOf, hm1] at e1 e2
    rw [e2, e1]
    by_cases hc : label = c
    · simp [hc]
    · by_cases hp : label = p
      · simp [hc, hp]
      · simp [hc, hp]
  · rw [foldl_uploadOne_absent p c cats _ g hg]

/-! ## Lemmas used by several claims -/

theorem runCalls_config (K : String) :
    ∀ (calls : List (String × Time)) (st st1 : State) (results : List Bool),
      runCalls st calls = some (results, st1) → (getConfig st1 K).1 = (getConfig st K).1 := by
  intro calls
  induction calls with
  | nil =>
    intro st st1 results hrun
    simp only [runCalls, Option.some.injEq, Prod.mk.injEq] at hrun
    rw [← hrun.2]
  | cons c calls ih =>
    intro st st1 results hrun
    obtain ⟨k, u⟩ := c
    obtain ⟨b, st2, hcall⟩ := isAllowed_isSome st k u
    simp only [runCalls, hcall] at hrun
    cases hq : runCalls st2 calls with
    | none => rw [hq] at hrun; simp at hrun
    | some q =>
    obtain ⟨rs2, st3⟩ := q
    rw [hq] at hrun
    simp only [Option.map_some', Option.some.injEq, Prod.mk.injEq] at hrun
    rw [← hrun.2, ih st2 st3 rs2 hq]
    exact isAllowed_config st st2 k K u b hcall

theorem windowTotal_drop (ws t : Time) (logs : requestLog) (h : t ≤ ws) :
    windowTotal ws (logs.filter (fun e => decide (e.1 ≠ t))) = windowTotal ws logs := by
  unfold windowTotal
  rw [List.filter_filter]
  congr 2
  apply List.filter_congr
  intro e _
  by_cases hw : ws < e.1
  · have hne : e.1 ≠ t := by
      intro heq
      rw [heq] at hw
      exact absurd hw (not_lt.mpr h)
    simp [hw, hne]
  · simp [hw]

/-! ## The claims -/

/-- C1, as stated, fails: "1.1.1.1" has a config with windowMs = 10^13 and
max = 1.  Its call at t = 0 is admitted, so max calls were admitted, and the
further call at t = 1 s, well inside the window of 10^13 ms, is admitted too:
the window in nanoseconds, 10^19, exceeds the range of Go's `int64` duration
and wraps around.  Counts wrap as well: under the default config (max = 5), in
a state whose log already holds the count 2^63 - 1, six calls at one instant
are all admitted. -/
theorem isAllowed_wide_window_admits :
    (getConfig wideWindowState "1.1.1.1").1.max = 1 ∧
      (1000000000 : Int) - 0 < 1000000 * (getConfig wideWindowState "1.1.1.1").1.windowMs ∧
      (runCalls wideWindowState [("1.1.1.1", 0), ("1.1.1.1", 1000000000)]).map Prod.fst =
        some [true, true] ∧
      (getConfig fullCountState "1.1.1.1").1.max = 5 ∧
      (runCalls fullCountState (List.replicate 6 ("1.1.1.1", 21))).map Prod.fst =
        some [true, true, true, true, true, true] := by
  decide

/-- C1, amended: sequential calls with a non-decreasing clock.  Let `C` be the
config the limiter resolves for the key `K` (its stored entry, or the default
when it has none), with a window whose length in nanoseconds fits Go's `int64`
duration.  If along a run of `isAllowed` calls `C.max` (or more) calls for `K`
were admitted, and a further call for `K` is made at a time `t`, not earlier
than any call of the run, with `t - t1 < C.windowMs` milliseconds for the first
admitted time `t1`, then that further call returns `false`.  The run may start
in any state whose log for `K` holds no negative count and whose counts, added
up, stay below 2^63 after one more per call. -/
theorem isAllowed_rejects_beyond_max (st st1 : State) (K : String)
    (calls : List (String × Time)) (results : List Bool) (t : Time)
    (hfit : fitsInt64 ((-1000000) * (getConfig st K).1.windowMs))
    (hcounts : ∀ e ∈ logOf st K, 0 ≤ e.2)
    (hsum : logTotal (logOf st K) + (calls.length : Int) < 9223372036854775808)
    (hclock : List.Sorted (fun a b : Time => a ≤ b) (calls.map Prod.snd ++ [t]))
    (hrun : runCalls st calls = some (results, st1))
    (hmax : (getConfig st K).1.max ≤ ((admittedTimes K calls results).length : Int))
    (hwin : ∀ t1, (admittedTimes K calls results).head? = some t1 →
      t - t1 < 1000000 * (getConfig st K).1.windowMs) :
    ∃ st2, isAllowed st1 K t = some (false, st2) := by
  have hpair := List.pairwise_append.mp hclock
  have hle : ∀ c ∈ calls, c.2 ≤ t := by
    intro c hc
    exact hpair.2.2 c.2 (List.mem_map_of_mem Prod.snd hc) t (List.mem_singleton_self t)
  have hsub : List.Pairwise (fun a b : Time => a ≤ b) (admittedTimes K calls results) :=
    List.Pairwise.sublist (admittedTimes_sublist K calls results) hpair.1
  have hstart := windowStart_of_fits (getConfig st K).1 t hfit
  have hadm : ∀ a ∈ admittedTimes K calls results,
      windowStart (getConfig st K).1 t < a := by
    intro a ha
    rw [hstart]
    cases hl : admittedTimes K calls results with
    | nil => rw [hl] at ha; simp at ha
    | cons t1 rest =>
      have h1 := hwin t1 (by rw [hl]; rfl)
      rw [hl] at ha hsub
      have h2 : t1 ≤ a := by
        rcases List.mem_cons.mp ha with h | h
        · exact le_of_eq h.symm
        · exact (List.pairwise_cons.mp hsub).1 a h
      linarith
  obtain ⟨hcfg, htot, hnn1, hbound⟩ :=
    runCalls_window K t calls st st1 results hrun hle hadm hcounts hsum
  have hnn := windowTotal_nonneg (windowStart (getConfig st K).1 t) (logOf st K) hcounts
  have hup := windowTotal_le_total (windowStart (getConfig st K).1 t) (logOf st1 K) hnn1
  have hlow : 0 ≤ windowTotal (windowStart (getConfig st K).1 t) (logOf st1 K) :=
    windowTotal_nonneg _ _ hnn1
  have hlen : (0 : Int) ≤ (calls.length : Int) := Int.natCast_nonneg _
  refine ⟨scannedState st1 K t, ?_⟩
  rw [isAllowed_eq, hcfg, if_pos]
  rw [wrap64_small _ hlow (by linarith), htot]
  linarith

/-- C1, amended, on the scenario of the spec: under the default config five
calls for "1.1.1.1" at t = 0 are admitted and the sixth call at t = 0 is
rejected. -/
theorem isAllowed_rejects_beyond_max_witness :
    ∃ st1 st2,
      runCalls start (List.replicate 5 ("1.1.1.1", 0)) =
        some ([true, true, true, true, true], st1) ∧
      isAllowed st1 "1.1.1.1" 0 = some (false, st2) := by
  obtain ⟨results, st1, h1⟩ := runCalls_isSome (List.replicate 5 ("1.1.1.1", 0)) start
  have hres : results = [true, true, true, true, true] := by
    have h0 : (runCalls start (List.replicate 5 ("1.1.1.1", 0))).map Prod.fst =
        some [true, true, true, true, true] := by decide
    rw [h1] at h0
    simpa using h0
  subst hres
  obtain ⟨st2, h2⟩ := isAllowed_rejects_beyond_max start st1 "1.1.1.1"
    (List.replicate 5 ("1.1.1.1", 0)) [true, true, true, true, true] 0
    (by decide) (by simp [logOf, start]) (by decide) (by decide) h1 (by decide) (by decide)
  exact ⟨st1, st2, h1, h2⟩

/-- C3: `getConfig(key)`.  When the config store has no entry for `key` it
returns the default `options` and the store afterwards maps `key` to `options`;
when an entry exists it returns that entry and leaves the store unchanged; the
entries of every other key are unchanged in both cases.  The default is
windowMs = 60000, max = 5, statusCode = 429, message = "Too many request". -/
theorem getConfig_spec (st : State) (key : String) :
    (match st.cs key with
      | none => (getConfig st key).1 = options ∧ (getConfig st key).2.cs key = some options
      | some c => (getConfig st key).1 = c ∧ (getConfig st key).2.cs = st.cs) ∧
    (∀ k, k ≠ key → (getConfig st key).2.cs k = st.cs k) ∧
    options.windowMs = 60000 ∧ options.max = 5 ∧ options.statusCode = 429 ∧
    options.message = "Too many request" := by
  refine ⟨?_, ?_, by decide, by decide, by decide, by decide⟩
  · cases h : st.cs key with
    | none => simp [getConfig, h, setKey]
    | some c => simp [getConfig, h]
  · intro k hk
    rw [getConfig_cs, if_neg hk]

/-- C4, as stated, fails: on the log {20: 2^63 - 1, 21: 1} with window start 10
the stored counts after the window start add up to 2^63, but the function
returns -2^63: `totalCount` is a Go `int` and wraps around. -/
theorem getTotalWithinCurrentWindow_wraps :
    (getTotalWithinCurrentWindow
        { start with rs := setKey start.rs "k" [(20, 9223372036854775807), (21, 1)] }
        "k" 10).1 = -9223372036854775808 ∧
      ((([(20, 9223372036854775807), (21, 1)] : requestLog).filter
        (fun e => decide ((10 : Int) < e.1))).map Prod.snd).sum = 9223372036854775808 := by
  decide

/-- C4, amended: `getTotalWithinCurrentWindow(key, startTime)` for a key that
already has a request log.  The returned total is the sum of the stored counts
of the entries whose timestamp is strictly after `startTime`, taken in Go's
`int` arithmetic (reduced modulo 2^64 into the `int64` range); it is the exact
sum whenever that sum lies in the `int64` range.  Afterwards the log of the key
holds exactly those entries: every timestamp after `startTime` keeps its count
and every timestamp at or before `startTime` (one equal to it included) is
gone. -/
theorem getTotalWithinCurrentWindow_spec (st : State) (key : String) (startTime : Time)
    (logs : requestLog) (h : st.rs key = some logs) :
    (getTotalWithinCurrentWindow st key startTime).1 =
        wrap64 ((logs.filter (fun e => decide (startTime < e.1))).map Prod.snd).sum ∧
      (fitsInt64 ((logs.filter (fun e => decide (startTime < e.1))).map Prod.snd).sum →
        (getTotalWithinCurrentWindow st key startTime).1 =
          ((logs.filter (fun e => decide (startTime < e.1))).map Prod.snd).sum) ∧
      (getTotalWithinCurrentWindow st key startTime).2.rs key =
        some (logs.filter (fun e => decide (startTime < e.1))) ∧
      (∀ t, startTime < t →
        lookupTs t (logOf (getTotalWithinCurrentWindow st key startTime).2 key) =
          lookupTs t logs) ∧
      (∀ t, t ≤ startTime →
        lookupTs t (logOf (getTotalWithinCurrentWindow st key startTime).2 key) = none) := by
  rw [getTotal_some st key startTime logs h]
  refine ⟨rfl, ?_, by simp [setKey], ?_, ?_⟩
  · intro hfit
    exact wrap64_of_fits _ hfit
  · intro t ht
    simp only [logOf, setKey, if_true, Option.getD_some]
    rw [lookupTs_filter (fun u => decide (startTime < u)) t logs]
    simp [ht]
  · intro t ht
    simp only [logOf, setKey, if_true, Option.getD_some]
    rw [lookupTs_filter (fun u => decide (startTime < u)) t logs]
    simp [not_lt.mpr ht]

/-- C4, amended, on a log with a timestamp before, one equal to and one after
the window start 10: the total is the count of the one after, and only it
remains. -/
theorem getTotalWithinCurrentWindow_spec_witness :
    (getTotalWithinCurrentWindow
        { start with rs := setKey start.rs "k" [(5, 2), (10, 3), (11, 4)] } "k" 10).1 = 4 ∧
      (getTotalWithinCurrentWindow
        { start with rs := setKey start.rs "k" [(5, 2), (10, 3), (11, 4)] } "k" 10).2.rs "k" =
        some [(11, 4)] := by
  have h := getTotalWithinCurrentWindow_spec
    { start with rs := setKey start.rs "k" [(5, 2), (10, 3), (11, 4)] } "k" 10
    [(5, 2), (10, 3), (11, 4)] (by decide)
  exact ⟨(h.2.1 (by decide)).trans (by decide), h.2.2.1.trans (by decide)⟩

/-- C5, as stated, fails: in the state `staleLogState` (log of "1.1.1.1" with one
request at t = 0 and five at t = 100 s) the call at t = 101 s under the default
config is rejected, and the request store after the call differs from the store
before it: the scan has removed the timestamp 0. -/
theorem isAllowed_reject_evicts :
    ∃ st1, isAllowed staleLogState "1.1.1.1" 101000000000 = some (false, st1) ∧
      st1.rs ≠ staleLogState.rs := by
  refine ⟨scannedState staleLogState "1.1.1.1" 101000000000, ?_, ?_⟩
  · rw [isAllowed_eq, if_pos (by decide)]
  · intro h
    have h1 := congrFun h "1.1.1.1"
    rw [scannedState_rs_same] at h1
    revert h1
    decide

/-- C5, amended: a rejected call registers nothing.  For every key and every
state in which `isAllowed(key)` returns `false`, the state after the call is the
one left by the eviction scan: the logs of all other keys are unchanged, and in
the log of the key every timestamp after the window start keeps its count, every
timestamp at or before it is removed, and no timestamp is added.  When the key
has a log without a timestamp at or before the window start, the request store
after the call equals the request store before the call; this is the case in
every state reached from the initial state by a sequence of `isAllowed` calls. -/
theorem isAllowed_reject_frame (st st1 : State) (key : String) (now : Time)
    (h : isAllowed st key now = some (false, st1)) :
    st1 = scannedState st key now ∧
      (∀ k, k ≠ key → st1.rs k = st.rs k) ∧
      (∀ t, lookupTs t (logOf st1 key) =
        if windowStart (getConfig st key).1 now < t then lookupTs t (logOf st key)
        else none) ∧
      ((∃ logs, st.rs key = some logs ∧
          ∀ e ∈ logs, windowStart (getConfig st key).1 now < e.1) →
        st1.rs = st.rs) ∧
      ((∃ calls results, runCalls start calls = some (results, st)) → st1.rs = st.rs) := by
  have hreach : (∃ calls results, runCalls start calls = some (results, st)) →
      st1.rs = st.rs := by
    rintro ⟨calls, results, hrun⟩
    exact limiterInv_reject st st1 key now
      (limiterInv_runCalls calls start st results limiterInv_start hrun) h
  have hst := isAllowed_rejected_state st st1 key now h
  subst hst
  refine ⟨rfl, ?_, ?_, ?_, hreach⟩
  · intro k hk
    exact scannedState_rs_other st key k now hk
  · intro t
    rw [scannedState_logOf_same]
    rw [lookupTs_filter
      (fun u => decide (windowStart (getConfig st key).1 now < u)) t (logOf st key)]
    simp
  · rintro ⟨logs, hlogs, hall⟩
    funext k
    by_cases hk : k = key
    · subst hk
      rw [scannedState_rs_same, hlogs]
      simp only [logOf, hlogs, Option.getD_some, Option.some.injEq]
      rw [List.filter_eq_self]
      intro e he
      simpa using hall e he
    · exact scannedState_rs_other st key k now hk

/-- C5, amended, on the scenario of the spec: after five admitted calls at t = 0
the sixth call at t = 0 is rejected and leaves the request store as it was. -/
theorem isAllowed_reject_frame_witness :
    ∃ st1, isAllowed (stateAfter start (List.replicate 5 ("1.1.1.1", 0))) "1.1.1.1" 0 =
        some (false, st1) ∧
      st1.rs = (stateAfter start (List.replicate 5 ("1.1.1.1", 0))).rs := by
  have hcall : isAllowed (stateAfter start (List.replicate 5 ("1.1.1.1", 0))) "1.1.1.1" 0 =
      some (false, scannedState (stateAfter start (List.replicate 5 ("1.1.1.1", 0))) "1.1.1.1" 0) := by
    rw [isAllowed_eq, if_pos (by decide)]
  refine ⟨_, hcall, ?_⟩
  exact (isAllowed_reject_frame _ _ "1.1.1.1" 0 hcall).2.2.2.1 ⟨[(0, 5)], by decide, by decide⟩

/-- C6, as stated, fails: in `fullCountState` the log of "1.1.1.1" holds the
count 2^63 - 1 at t = 21 ns.  The call at t = 21 ns is admitted (the scan total
wraps around to -2^63, below max), and the count at `now` afterwards is -2^63,
not the old count plus one. -/
theorem isAllowed_count_wraps :
    lookupTs 21 (logOf (scannedState fullCountState "1.1.1.1" 21) "1.1.1.1") =
        some 9223372036854775807 ∧
      (isAllowed fullCountState "1.1.1.1" 21).map
          (fun r => (r.1, lookupTs 21 (logOf r.2 "1.1.1.1"))) =
        some (true, some (-9223372036854775808)) := by
  decide

/-- C6, amended: for every key and time `now` at which `isAllowed(key)` returns
`true`, the log of the key afterwards exists and is the log left by the
eviction scan with the count at `now` increased by one in Go's `int` arithmetic
(set to 1 when `now` had no entry; exactly one more whenever the old count plus
one lies in the `int64` range), and no other timestamp changes.  So on a fresh
key (no log, no config entry yet) `k + 1` admitted requests at one identical
timestamp leave a single entry with count `k + 1`. -/
theorem isAllowed_admit_registers (st st1 : State) (key : String) (now : Time)
    (h : isAllowed st key now = some (true, st1)) :
    st1.rs key = some (incrTs now (logOf (scannedState st key now) key)) ∧
      lookupTs now (logOf st1 key) =
        some (wrap64 ((lookupTs now (logOf (scannedState st key now) key)).getD 0 + 1)) ∧
      (fitsInt64 ((lookupTs now (logOf (scannedState st key now) key)).getD 0 + 1) →
        lookupTs now (logOf st1 key) =
          some ((lookupTs now (logOf (scannedState st key now) key)).getD 0 + 1)) ∧
      (lookupTs now (logOf (scannedState st key now) key) = none →
        lookupTs now (logOf st1 key) = some 1) ∧
      (∀ u, u ≠ now →
        lookupTs u (logOf st1 key) = lookupTs u (logOf (scannedState st key now) key)) ∧
      (∀ (k : Nat) (stk : State), st.rs key = none → st.cs key = none →
        runCalls st (List.replicate (k + 1) (key, now)) =
          some (List.replicate (k + 1) true, stk) →
        stk.rs key = some [(now, (k : Int) + 1)]) := by
  have hrs := isAllowed_rs_admitted st st1 key now h
  have hlog : logOf st1 key = incrTs now (logOf (scannedState st key now) key) := by
    simp [logOf, hrs]
  have hsame : lookupTs now (logOf st1 key) =
      some (wrap64 ((lookupTs now (logOf (scannedState st key now) key)).getD 0 + 1)) := by
    rw [hlog, lookupTs_incrTs_same]
  refine ⟨hrs, hsame, ?_, ?_, ?_, ?_⟩
  · intro hfit
    rw [hsame, wrap64_of_fits _ hfit]
  · intro hnone
    rw [hsame, hnone]
    decide
  · intro u hu
    rw [hlog, lookupTs_incrTs_other now u _ hu]
  · intro k stk hnone hcs hrun
    simp only [List.replicate, runCalls, h] at hrun
    cases hq : runCalls st1 (List.replicate k (key, now)) with
    | none => rw [hq] at hrun; simp at hrun
    | some q =>
    obtain ⟨rs2, st3⟩ := q
    rw [hq] at hrun
    simp only [Option.map_some', Option.some.injEq, Prod.mk.injEq, List.cons.injEq,
      true_and] at hrun
    obtain ⟨hres, hst⟩ := hrun
    subst hres
    subst hst
    have hfirst : st1.rs key = some [(now, 1)] := by
      rw [hrs, scannedState_logOf_same]
      simp [logOf, hnone, incrTs]
    have hcfg : (getConfig st1 key).1 = options := by
      rw [isAllowed_config st st1 key key now true h, getConfig_fst, hcs]
      rfl
    have := runCalls_same_timestamp key now k st1 st3 1 hfirst hcfg (by decide) (by decide) hq
    rw [this]
    congr 3
    ring

/-- C6, amended, on the default config: the first call for "1.1.1.1" at t = 0 is admitted
and creates the log with the single entry (0, 1); three admitted calls at t = 0
on the fresh key leave the single entry (0, 3). -/
theorem isAllowed_admit_registers_witness :
    ∃ st1 st3, isAllowed start "1.1.1.1" 0 = some (true, st1) ∧
      st1.rs "1.1.1.1" = some [(0, 1)] ∧
      runCalls start (List.replicate 3 ("1.1.1.1", 0)) = some ([true, true, true], st3) ∧
      st3.rs "1.1.1.1" = some [(0, 3)] := by
  obtain ⟨b, st1, hcall⟩ := isAllowed_isSome start "1.1.1.1" 0
  have hb : b = true := by
    have h1 : (isAllowed start "1.1.1.1" 0).map Prod.fst = some true := by decide
    rw [hcall] at h1
    simpa using h1
  subst hb
  have hthree : ∃ st3, runCalls start (List.replicate 3 ("1.1.1.1", 0)) =
      some ([true, true, true], st3) := by
    cases hr : runCalls start (List.replicate 3 ("1.1.1.1", 0)) with
    | none =>
      have : (runCalls start (List.replicate 3 ("1.1.1.1", 0))).isSome = true := by decide
      rw [hr] at this
      simp at this
    | some r =>
      have : (runCalls start (List.replicate 3 ("1.1.1.1", 0))).map Prod.fst =
          some [true, true, true] := by decide
      rw [hr] at this
      simp only [Option.map_some', Option.some.injEq] at this
      exact ⟨r.2, by rw [← this]⟩
  obtain ⟨st3, h3⟩ := hthree
  have hthm := isAllowed_admit_registers start st1 "1.1.1.1" 0 hcall
  refine ⟨st1, st3, hcall, ?_, h3, ?_⟩
  · rw [hthm.1, scannedState_logOf_same]
    decide
  · exact hthm.2.2.2.2.2 2 st3 (by decide) (by decide) h3

/-- C7, as stated, fails: with the global click counter at 2^63 - 1, the
largest `int`, `processClick("sports")` leaves click = -2^63 and writes
current["sports"].Click = -2^63, not c + 1: Go's `c.click++` wraps around. -/
theorem processClick_wraps :
    (processClick { start with c := { view := 0, click := 9223372036854775807 } }
        "sports").c.click = -9223372036854775808 ∧
      currentOf
        (processClick { start with c := { view := 0, click := 9223372036854775807 } }
          "sports") "sports" = { View := 0, Click := -9223372036854775808 } := by
  decide

/-- C7, amended: for every state with global counters view = v, click = c and
every category g, `processClick(g)` leaves view = v, sets click to c + 1 in
Go's `int` arithmetic (exactly c + 1 whenever c + 1 lies in the `int64` range,
that is for every c below 2^63 - 1), sets the "current" entry of g to
{View: v, Click: the new click} and leaves the "current" entry of every other
category as it was. -/
theorem processClick_spec (st : State) (g : String) :
    (processClick st g).c.view = st.c.view ∧
      (processClick st g).c.click = wrap64 (st.c.click + 1) ∧
      (processClick st g).cc = st.cc ∧
      (processClick st g).heap st.cc g =
        some { View := st.c.view, Click := wrap64 (st.c.click + 1) } ∧
      currentOf (processClick st g) g =
        { View := st.c.view, Click := wrap64 (st.c.click + 1) } ∧
      (fitsInt64 (st.c.click + 1) →
        (processClick st g).c.click = st.c.click + 1 ∧
          currentOf (processClick st g) g =
            { View := st.c.view, Click := st.c.click + 1 }) ∧
      (∀ g1, g1 ≠ g → (processClick st g).heap st.cc g1 = st.heap st.cc g1) := by
  have hcur : currentOf (processClick st g) g =
      { View := st.c.view, Click := wrap64 (st.c.click + 1) } := by
    simp [currentOf, readCounter, processClick, setKey]
  refine ⟨rfl, rfl, rfl, ?_, hcur, ?_, ?_⟩
  · simp [processClick, setKey]
  · intro hfit
    have hw := wrap64_of_fits _ hfit
    refine ⟨?_, ?_⟩
    · show wrap64 (st.c.click + 1) = st.c.click + 1
      exact hw
    · rw [hcur, hw]
  · intro g1 hg
    simp [processClick, setKey, hg]

/-- C7, amended, on the scenario of the spec: from the initial state, three
view events without a click followed by `processClick("sports")` give
current["sports"] = {view: 3, click: 1}. -/
theorem processClick_spec_witness :
    currentOf
      (processClick
        (viewHandler (viewHandler (viewHandler start ⟨0, by decide⟩ 99) ⟨1, by decide⟩ 99)
          ⟨2, by decide⟩ 99) "sports") "sports" = { View := 3, Click := 1 } :=
  ((processClick_spec
    (viewHandler (viewHandler (viewHandler start ⟨0, by decide⟩ 99) ⟨1, by decide⟩ 99)
      ⟨2, by decide⟩ 99) "sports").2.2.2.2.2.1 (by decide)).2.trans (by decide)

/-- C8 fails on the code.  `update` assigns the map variable `cc` to `prev`, so
afterwards both name one map: from the initial state, after one view event and
`update()`, previous["sports"] reads {0, 0}; the `processClick("sports")` that
follows changes it to {1, 1}.  In general, after `update()` every
`processClick(g)` makes previous[g] equal to the new current[g]. -/
theorem update_shares_map :
    previousOf (update (viewHandler start ⟨0, by decide⟩ 99)) "sports" =
        { View := 0, Click := 0 } ∧
      previousOf (processClick (update (viewHandler start ⟨0, by decide⟩ 99)) "sports")
        "sports" = { View := 1, Click := 1 } ∧
      ∀ (st : State) (g : String),
        previousOf (processClick (update st) g) g =
          { View := st.c.view, Click := wrap64 (st.c.click + 1) } ∧
        previousOf (processClick (update st) g) g =
          currentOf (processClick (update st) g) g := by
  refine ⟨by decide, by decide, ?_⟩
  intro st g
  refine ⟨?_, rfl⟩
  simp [previousOf, readCounter, processClick, update, setKey]

/-- C9: `uploadCounters` at time `now`, for every state.  Afterwards, for every
category in `content`, the snapshot store has a bucket under the label of
`now - 1 minute` equal to the category's "previous" counter and a bucket under
the label of `now` equal to its "current" counter, a category absent from the
live mapping giving {View: 0, Click: 0}; every bucket under any other label is
unchanged, the buckets of categories outside `content` are unchanged, and
"current", "previous", the global counters and the limiter's stores are
unchanged. -/
theorem uploadCounters_spec (st : State) (now : Time) :
    (∀ g ∈ content,
        bucketOf (uploadCounters st now now) g (formatLabel (now - 60000000000)) =
            some (previousOf st g) ∧
          bucketOf (uploadCounters st now now) g (formatLabel now) = some (currentOf st g)) ∧
      (∀ g label, label ≠ formatLabel (now - 60000000000) → label ≠ formatLabel now →
        bucketOf (uploadCounters st now now) g label = bucketOf st g label) ∧
      (∀ g, g ∉ content → (uploadCounters st now now).s g = st.s g) ∧
      (∀ g, currentOf (uploadCounters st now now) g = currentOf st g) ∧
      (∀ g, previousOf (uploadCounters st now now) g = previousOf st g) ∧
      (uploadCounters st now now).heap = st.heap ∧
      (uploadCounters st now now).cc = st.cc ∧
      (uploadCounters st now now).prev = st.prev ∧
      (uploadCounters st now now).c = st.c ∧
      (uploadCounters st now now).cs = st.cs ∧
      (uploadCounters st now now).rs = st.rs := by
  have hsub : now - 60000000000 = now + (-60000000000) * 1 := by ring
  rw [hsub]
  have hne := formatLabel_prev_ne now
  obtain ⟨h1, h2, h3, h4, h5, h6⟩ :=
    foldl_uploadOne_frame (formatLabel (now + (-60000000000) * 1)) (formatLabel now) content st
  unfold uploadCounters
  simp only
  refine ⟨?_, ?_, ?_, ?_, ?_, h1, h2, h3, h4, h5, h6⟩
  · intro g hg
    constructor
    · rw [bucketOf_foldl_uploadOne _ _ content st g _ hg, if_neg hne, if_pos rfl]
    · rw [bucketOf_foldl_uploadOne _ _ content st g _ hg, if_pos rfl]
  · intro g label hp hc
    by_cases hg : g ∈ content
    · rw [bucketOf_foldl_uploadOne _ _ content st g _ hg, if_neg hc, if_neg hp]
    · unfold bucketOf
      rw [foldl_uploadOne_absent _ _ content st g hg]
  · intro g hg
    exact foldl_uploadOne_absent _ _ content st g hg
  · intro g
    simp only [currentOf, h1, h2]
  · intro g
    simp only [previousOf, h1, h3]

/-- C10 fails on the code.  The layout element `03` prints the hour of the
12-hour clock, so 2006-01-02 01:04 and 2006-01-02 13:04 get the same label
"2006-01-02 01:04" although they lie in different calendar minutes. -/
theorem formatLabel_merges_half_days :
    formatLabel 1136163840000000000 = "2006-01-02 01:04" ∧
      formatLabel 1136207040000000000 = "2006-01-02 01:04" ∧
      calendarMinute 1136163840000000000 = ((2006, 1, 2), 1, 4) ∧
      calendarMinute 1136207040000000000 = ((2006, 1, 2), 13, 4) := by
  decide

/-- C11, as stated, fails: after five admitted calls for "1.1.1.1" at t = 0 the
limiter rejects that key, yet a view request handled in that state raises the
view counter from 0 to 1, and with a click draw below 50 it also raises the
click counter and writes current["sports"]. -/
theorem viewHandler_ignores_limiter :
    (∃ st1, isAllowed (stateAfter start (List.replicate 5 ("1.1.1.1", 0))) "1.1.1.1" 0 =
        some (false, st1)) ∧
      (stateAfter start (List.replicate 5 ("1.1.1.1", 0))).c.view = 0 ∧
      (viewHandler (stateAfter start (List.replicate 5 ("1.1.1.1", 0)))
        ⟨0, by decide⟩ 99).c.view = 1 ∧
      (viewHandler (stateAfter start (List.replicate 5 ("1.1.1.1", 0)))
        ⟨0, by decide⟩ 10).c.click = 1 ∧
      currentOf (viewHandler (stateAfter start (List.replicate 5 ("1.1.1.1", 0)))
        ⟨0, by decide⟩ 10) "sports" = { View := 1, Click := 1 } := by
  refine ⟨⟨scannedState (stateAfter start (List.replicate 5 ("1.1.1.1", 0))) "1.1.1.1" 0, ?_⟩,
    by decide, by decide, by decide, by decide⟩
  rw [isAllowed_eq, if_pos (by decide)]

/-- C11, amended: `viewHandler` does not consult the rate limiter.  In every
state, whatever the limiter would answer for the client, handling a view
request adds one to the global view counter in Go's `int` arithmetic (exactly
one whenever the counter plus one lies in the `int64` range) and leaves the
limiter's stores, the snapshot store and the map variables `cc` and `prev`
unchanged; with a click draw of 50 or more the click counter, the maps and so
the "current" and "previous" counters are unchanged, with a draw below 50 the
handler goes on with `processClick` on the drawn category. -/
theorem viewHandler_spec (st : State) (pick : Fin content.length) (draw : Nat) :
    (viewHandler st pick draw).c.view = wrap64 (st.c.view + 1) ∧
      (fitsInt64 (st.c.view + 1) → (viewHandler st pick draw).c.view = st.c.view + 1) ∧
      (viewHandler st pick draw).rs = st.rs ∧
      (viewHandler st pick draw).cs = st.cs ∧
      (viewHandler st pick draw).s = st.s ∧
      (viewHandler st pick draw).cc = st.cc ∧
      (viewHandler st pick draw).prev = st.prev ∧
      (50 ≤ draw →
        (viewHandler st pick draw).c.click = st.c.click ∧
          (viewHandler st pick draw).heap = st.heap ∧
          (∀ g, currentOf (viewHandler st pick draw) g = currentOf st g) ∧
          (∀ g, previousOf (viewHandler st pick draw) g = previousOf st g)) ∧
      (draw < 50 →
        viewHandler st pick draw =
          processClick { st with c := { st.c with view := wrap64 (st.c.view + 1) } }
            (content.get pick)) := by
  have hview : (viewHandler st pick draw).c.view = wrap64 (st.c.view + 1) := by
    by_cases hd : draw < 50
    · simp [viewHandler, processRequest, processClick, hd]
    · simp [viewHandler, processRequest, hd]
  refine ⟨hview, ?_, ?_, ?_, ?_, ?_, ?_, ?_, ?_⟩
  · intro hfit
    rw [hview, wrap64_of_fits _ hfit]
  · by_cases hd : draw < 50
    · simp [viewHandler, processRequest, processClick, hd]
    · simp [viewHandler, processRequest, hd]
  · by_cases hd : draw < 50
    · simp [viewHandler, processRequest, processClick, hd]
    · simp [viewHandler, processRequest, hd]
  · by_cases hd : draw < 50
    · simp [viewHandler, processRequest, processClick, hd]
    · simp [viewHandler, processRequest, hd]
  · by_cases hd : draw < 50
    · simp [viewHandler, processRequest, processClick, hd]
    · simp [viewHandler, processRequest, hd]
  · by_cases hd : draw < 50
    · simp [viewHandler, processRequest, processClick, hd]
    · simp [viewHandler, processRequest, hd]
  · intro hge
    have hd : ¬ draw < 50 := Nat.not_lt.mpr hge
    simp [viewHandler, processRequest, hd, currentOf, previousOf]
  · intro hd
    simp [viewHandler, processRequest, hd]

/-- C12, as stated, fails: under the default config, whose rejection message is
"Too many request", the stats request of "1.1.1.1" after five admitted calls at
t = 0 is rejected with status 429 and no body at all; the message is not sent. -/
theorem statsHandler_sends_no_message :
    (statsHandler (stateAfter start (List.replicate 5 ("1.1.1.1", 0)))
        { forwarded := "", remoteAddr := "1.1.1.1" } 0 (fun _ => [])).map Prod.fst =
        some { statusCode := 429, body := none } ∧
      (getConfig (stateAfter start (List.replicate 5 ("1.1.1.1", 0))) "1.1.1.1").1.message =
        "Too many request" := by
  decide

/-- C12, amended: for every client key whose admission check fails,
`statsHandler` answers with the fixed status 429 and writes no body, and leaves
the state as `isAllowed` left it; the fields `statusCode` and `message` of the
key's config are not read.  The fixed status equals the `statusCode` of the
default config. -/
theorem statsHandler_reject (st st1 : State) (r : request) (now : Time)
    (order : String → List String)
    (h : isAllowed st (getIP r) now = some (false, st1)) :
    statsHandler st r now order = some ({ statusCode := 429, body := none }, st1) ∧
      options.statusCode = 429 := by
  refine ⟨?_, rfl⟩
  simp only [statsHandler, h]

/-- C12, amended, on the scenario of the spec: the sixth stats request of
"1.1.1.1" at t = 0 gets status 429 and no body. -/
theorem statsHandler_reject_witness :
    ∃ st1, statsHandler (stateAfter start (List.replicate 5 ("1.1.1.1", 0)))
        { forwarded := "", remoteAddr := "1.1.1.1" } 0 (fun _ => []) =
      some ({ statusCode := 429, body := none }, st1) :=
  ⟨scannedState (stateAfter start (List.replicate 5 ("1.1.1.1", 0))) "1.1.1.1" 0,
    (statsHandler_reject (stateAfter start (List.replicate 5 ("1.1.1.1", 0))) _
      { forwarded := "", remoteAddr := "1.1.1.1" } 0 (fun _ => [])
      (by rw [isAllowed_eq, if_pos (by decide)]; rfl)).1⟩

/-- C13, as stated, fails: for a process started at second 0 of a minute the
initial delay is 59 seconds, 0 + 59 is not a multiple of 60, and the first
rotation fires at second 59, one second before the minute boundary. -/
theorem first_rotation_off_boundary :
    secondOf 0 = 0 ∧ (secondOf 0 + left 0) % 60 = 59 ∧
      rotationTime 0 0 = some 59000000000 ∧
      (59000000000 : Int) % 60000000000 ≠ 0 := by
  decide

/-- C13, amended: for every process start time whose seconds-of-minute s is in
0..58, s plus the initial ticker delay `left` is 59: the first rotation fires in
second 59 of the minute of the start (the source says "update prev at 59
second"), and every later rotation fires 60 seconds after the one before. -/
theorem rotation_schedule (t0 : Time) (h : secondOf t0 ≠ 59) :
    secondOf t0 + left t0 = 59 ∧
      (∃ f, rotationTime t0 0 = some f ∧ f = t0 + left t0 * 1000000000 ∧
        secondOf f = 59 ∧ unixSec f / 60 = unixSec t0 / 60) ∧
      (∀ n : Nat, ∃ f, rotationTime t0 n = some f ∧
        rotationTime t0 (n + 1) = some (f + 60000000000)) := by
  refine ⟨by unfold left; ring, ⟨_, rotationTime_first t0 h, rfl, ?_, ?_⟩, ?_⟩
  · unfold secondOf unixSec left secondOf unixSec
    omega
  · unfold unixSec left secondOf unixSec
    omega
  · intro n
    refine ⟨_, rotationTime_later t0 h n, ?_⟩
    rw [rotationTime_later t0 h (n + 1)]
    push_cast
    congr 1
    ring

/-- C13, amended, for a process started 12.5 s into a minute: the first
rotation fires 47 s later, 59.5 s into that minute, the second one 60 s after. -/
theorem rotation_schedule_witness :
    rotationTime 12500000000 0 = some 59500000000 ∧
      rotationTime 12500000000 1 = some 119500000000 := by
  have h := rotation_schedule 12500000000 (by decide)
  obtain ⟨f, hf, hval, _, _⟩ := h.2.1
  obtain ⟨g, hg, hnext⟩ := h.2.2 0
  have hfv : f = 59500000000 := by rw [hval]; decide
  have hgf : g = f := by
    rw [hf] at hg
    exact (Option.some.inj hg).symm
  refine ⟨by rw [hf, hfv], ?_⟩
  rw [hnext, hgf, hfv]
  rfl

/-- C14 fails on the code.  `isAllowed` is its first part (config, scan,
comparison) followed by its second part (register), and no lock spans the two.
With four requests of "1.1.1.1" logged at t = 0 under the default config
(max = 5), two calls at t = 1 s that both run the first part before either
runs the second part are both admitted, and the log then holds six requests
inside one window. -/
theorem raceTwoCalls_exceeds_max :
    (∀ (st : State) (key : String) (t : Time),
        isAllowed st key t =
          isAllowedFinish (isAllowedCheck st key t).2 key t (isAllowedCheck st key t).1) ∧
      (raceTwoCalls (stateAfter start (List.replicate 4 ("1.1.1.1", 0))) "1.1.1.1"
          1000000000 1000000000).map (fun r => (r.1, logOf r.2 "1.1.1.1")) =
        some ((true, true), [(0, 4), (1000000000, 2)]) ∧
      windowTotal (1000000000 + (-1000000) * options.windowMs)
        [(0, 4), (1000000000, 2)] = 6 ∧
      options.max = 5 := by
  refine ⟨?_, by decide, by decide, by decide⟩
  intro st key t
  unfold isAllowed isAllowedFinish isAllowedCheck
  simp only
  split <;> simp_all

/-- C15: eviction is final.  Let a call for the key `K` at time `u` scan the
log, `t` being at or before its window start (so the scan removes `t`), and let
any sequence of `isAllowed` calls at non-decreasing times from `u` on follow.
Then the total that a later call for `K`, at a time `v ≥ u`, computes is the
total (in Go's `int` arithmetic) over the entries with a timestamp other than
`t`: nothing registered at `t` is counted again.  When the window start lies
before the call, as it does for every positive window that fits the `int64`
duration, the log of `K` moreover has no entry at `t` after the scan and after
the later calls. -/
theorem evicted_never_counted (st st1 st2 : State) (K : String) (t u : Time) (b : Bool)
    (calls : List (String × Time)) (results : List Bool)
    (hevict : t ≤ windowStart (getConfig st K).1 u)
    (hcall : isAllowed st K u = some (b, st1))
    (hclock : List.Sorted (fun a b : Time => a ≤ b) (u :: calls.map Prod.snd))
    (hrun : runCalls st1 calls = some (results, st2)) :
    (∀ v : Time, u ≤ v →
        (getTotalWithinCurrentWindow (getConfig st2 K).2 K
            (windowStart (getConfig st2 K).1 v)).1 =
          wrap64 (windowTotal (windowStart (getConfig st2 K).1 v)
            ((logOf st2 K).filter (fun e => decide (e.1 ≠ t))))) ∧
      (windowStart (getConfig st K).1 u < u →
        lookupTs t (logOf st1 K) = none ∧ lookupTs t (logOf st2 K) = none ∧
          ∀ ws : Time,
            (getTotalWithinCurrentWindow (getConfig st2 K).2 K ws).1 =
              wrap64 (windowTotal ws ((logOf st2 K).filter (fun e => decide (e.1 ≠ t))))) ∧
      (0 < (getConfig st K).1.windowMs →
        fitsInt64 ((-1000000) * (getConfig st K).1.windowMs) →
        windowStart (getConfig st K).1 u < u) := by
  have hcfg : (getConfig st2 K).1 = (getConfig st K).1 := by
    rw [runCalls_config K calls st1 st2 results hrun]
    exact isAllowed_config st st1 K K u b hcall
  refine ⟨?_, ?_, ?_⟩
  · intro v huv
    have hstart : t ≤ windowStart (getConfig st2 K).1 v := by
      rw [hcfg]
      have hmono : windowStart (getConfig st K).1 u ≤ windowStart (getConfig st K).1 v :=
        add_le_add_right huv _
      exact le_trans hevict hmono
    rw [getTotal_eq, getConfig_logOf, windowTotal_drop _ t _ hstart]
  · intro hbefore
    have h1 := isAllowed_evicted st st1 K u t b hbefore hevict hcall
    have htu : t < u := lt_of_le_of_lt hevict hbefore
    have hlater : ∀ c ∈ calls, t < c.2 := by
      intro c hc
      have := (List.pairwise_cons.mp hclock).1 c.2 (List.mem_map_of_mem Prod.snd hc)
      exact lt_of_lt_of_le htu this
    have h2 := runCalls_absent K t calls st1 st2 results h1 hlater hrun
    refine ⟨h1, h2, ?_⟩
    intro ws
    rw [getTotal_eq, getConfig_logOf, filter_absent t _ h2]
  · intro hpos hfit
    rw [windowStart_of_fits _ u hfit]
    linarith

/-- C15 on the default config: a request of "1.1.1.1" logged at t = 0 is
removed by the call at t = 61 s and is absent after the later call at 62 s. -/
theorem evicted_never_counted_witness :
    lookupTs 0 (logOf (stateAfter start [("1.1.1.1", 0)]) "1.1.1.1") = some 1 ∧
      ∃ b st1 results st2,
        isAllowed (stateAfter start [("1.1.1.1", 0)]) "1.1.1.1" 61000000000 = some (b, st1) ∧
        runCalls st1 [("1.1.1.1", 62000000000)] = some (results, st2) ∧
        lookupTs 0 (logOf st2 "1.1.1.1") = none := by
  refine ⟨by decide, ?_⟩
  obtain ⟨b, st1, hcall⟩ :=
    isAllowed_isSome (stateAfter start [("1.1.1.1", 0)]) "1.1.1.1" 61000000000
  obtain ⟨results, st2, hrun⟩ := runCalls_isSome [("1.1.1.1", 62000000000)] st1
  exact ⟨b, st1, results, st2, hcall, hrun,
    ((evicted_never_counted (stateAfter start [("1.1.1.1", 0)]) st1 st2 "1.1.1.1" 0
      61000000000 b [("1.1.1.1", 62000000000)] results (by decide) hcall
      (by decide) hrun).2.1 (by decide)).2.1⟩

/-- C16: rotation is idempotent.  For every state, running `update()` twice
gives the same state, hence the same "previous" and "current", as running it
once; `update()` leaves the map behind "current" untouched, and after it
"previous" reads what "current" reads. -/
theorem update_idempotent (st : State) :
    update (update st) = update st ∧
      (update st).cc = st.cc ∧ (update st).heap = st.heap ∧
      (∀ g, currentOf (update st) g = currentOf st g) ∧
      (∀ g, previousOf (update st) g = currentOf st g) ∧
      (∀ g, previousOf (update (update st)) g = previousOf (update st) g) :=
  ⟨rfl, rfl, rfl, fun _ => rfl, fun _ => rfl, fun _ => rfl⟩

/-- C17: snapshot writing is overwrite-idempotent.  For every state and time
`now`, running `uploadCounters` twice at `now` leaves the same state, and so the
same snapshot store, as running it once. -/
theorem uploadCounters_idempotent (st : State) (now : Time) :
    uploadCounters (uploadCounters st now now) now now = uploadCounters st now now ∧
      (uploadCounters (uploadCounters st now now) now now).s =
        (uploadCounters st now now).s := by
  have h : uploadCounters (uploadCounters st now now) now now = uploadCounters st now now := by
    unfold uploadCounters
    exact foldl_uploadOne_twice _ _ content st
  exact ⟨h, by rw [h]⟩

/-- C18: the invariant of the sequential limiter.  Starting from the empty
stores, after every sequence of `isAllowed` calls (any keys, any clock
readings) every key resolves to the default config, and for every key and every
window start the sum of the counts stored after that window start is at most
`max`; this holds in particular for the window that ends at the latest call for
the key, where the sum is also the total that the code computes in Go's `int`
arithmetic. -/
theorem limiter_window_bound (calls : List (String × Time)) (results : List Bool)
    (st : State) (hrun : runCalls start calls = some (results, st)) :
    ∀ key : String, (getConfig st key).1 = options ∧
      (∀ ws : Time, windowTotal ws (logOf st key) ≤ options.max) ∧
      (∀ t : Time, windowTotal (t + (-1000000) * (getConfig st key).1.windowMs) (logOf st key) ≤
        (getConfig st key).1.max) ∧
      ∀ t : Time,
        wrap64 (windowTotal (windowStart (getConfig st key).1 t) (logOf st key)) =
            windowTotal (windowStart (getConfig st key).1 t) (logOf st key) ∧
          windowTotal (windowStart (getConfig st key).1 t) (logOf st key) ≤
            (getConfig st key).1.max := by
  intro key
  obtain ⟨hc, hcount, htot⟩ :=
    limiterInv_runCalls calls start st results limiterInv_start hrun key
  have hall : ∀ ws : Time, windowTotal ws (logOf st key) ≤ options.max :=
    fun ws => le_trans (windowTotal_le_logTotal ws _ hcount) htot
  have hcount0 : ∀ e ∈ logOf st key, 0 ≤ e.2 :=
    fun e he => le_trans (by decide) (hcount e he)
  have hmax : options.max = 5 := rfl
  refine ⟨hc, hall, ?_, ?_⟩
  · intro t
    rw [hc]
    exact hall _
  · intro t
    have h1 := hall (windowStart (getConfig st key).1 t)
    have h0 := windowTotal_nonneg (windowStart (getConfig st key).1 t) (logOf st key) hcount0
    refine ⟨wrap64_small _ h0 (by omega), ?_⟩
    rw [hc] at h1 ⊢
    exact h1

/-- C18 on the scenario of the spec: after six calls of "1.1.1.1" at t = 0 the
window that ends at t = 0 holds exactly five requests, the maximum. -/
theorem limiter_window_bound_witness :
    ∃ st, runCalls start (List.replicate 6 ("1.1.1.1", 0)) =
        some ([true, true, true, true, true, false], st) ∧
      windowTotal (0 + (-1000000) * options.windowMs) (logOf st "1.1.1.1") ≤ options.max ∧
      windowTotal (0 + (-1000000) * options.windowMs)
        (logOf (stateAfter start (List.replicate 6 ("1.1.1.1", 0))) "1.1.1.1") = 5 := by
  obtain ⟨results, st, hrun⟩ := runCalls_isSome (List.replicate 6 ("1.1.1.1", 0)) start
  have hres : results = [true, true, true, true, true, false] := by
    have h1 : (runCalls start (List.replicate 6 ("1.1.1.1", 0))).map Prod.fst =
        some [true, true, true, true, true, false] := by decide
    rw [hrun] at h1
    simpa using h1
  subst hres
  exact ⟨st, hrun,
    (limiter_window_bound (List.replicate 6 ("1.1.1.1", 0)) _ st hrun "1.1.1.1").2.1 _,
    by decide⟩

/-- C19 fails on the code: for a process started in second 59 of a minute,
`left` is 0, the interval passed to `time.NewTicker` is 0 and `NewTicker`
panics; no rotation is ever scheduled. -/
theorem newTicker_panics_at_second_59 :
    secondOf 59000000000 = 59 ∧ left 59000000000 = 0 ∧
      newTicker (left 59000000000 * 1000000000) = none ∧
      rotationTime 59000000000 0 = none := by
  decide

/-- C20: in every sequential execution of `isAllowed(key)`, for every key and
every state (a key never seen before included), the state that reaches
`registerRequest` has a log for the key, so the write `rs.store[key][t]++`
succeeds and `isAllowed` returns without a panic. -/
theorem isAllowed_register_safe (st : State) (key : String) (now : Time) :
    (∃ logs, (scannedState st key now).rs key = some logs) ∧
      (∃ st2, registerRequest (scannedState st key now) key now = some st2) ∧
      (isAllowedCheck st key now).2 = scannedState st key now ∧
      ∃ b st1, isAllowed st key now = some (b, st1) := by
  have hlog := scannedState_rs_same st key now
  have hreg : ∃ st2, registerRequest (scannedState st key now) key now = some st2 := by
    simp only [registerRequest, hlog]
    exact ⟨_, rfl⟩
  refine ⟨⟨_, hlog⟩, hreg, rfl, ?_⟩
  rw [isAllowed_eq]
  split
  · exact ⟨_, _, rfl⟩
  · exact ⟨_, _, rfl⟩

end Server
